import Mathlib

/-!
Verification of the Sudoku solver in `Sudoku.py` (backtracking search with
forward checking, MRV variable ordering and least-constraining-value
ordering).  The Python source is shallowly embedded below: the mutable
9×9 numpy array becomes a `List (List Nat)` threaded through the
functions, the per-cell candidate dictionary becomes a partial map
`Pos → Option (List Nat)`, and the recursion of `solve` is driven by an
explicit fuel argument (recursion depth; the success test `not 0 in board`
is checked before fuel is consumed, exactly as in the source, so results
proved for all fuel reflect the source's behaviour).
-/

set_option maxHeartbeats 4000000

set_option maxRecDepth 100000

abbrev Pos : Type := Nat × Nat

abbrev Board : Type := List (List Nat)

/-- Partial map from positions to candidate lists, embedding the Python
`dict` used for domains as an association list in key-insertion order
(Python dicts preserve insertion order; no duplicate keys ever arise,
and lookups take the first matching entry). -/
abbrev DomainsT : Type := List (Pos × List Nat)

/-- Cell read `board[p]` (defaults to 0 out of range; all claims restrict
to in-range positions of well-formed boards). -/
def bget (board : Board) (p : Pos) : Nat :=
  (board.getD p.1 []).getD p.2 0

/-- Cell write `board[p] = v` (no-op out of range). -/
def bset (board : Board) (p : Pos) (v : Nat) : Board :=
  board.set p.1 ((board.getD p.1 []).set p.2 v)

/-- `board.shape[0]` of the numpy array: number of rows. -/
def shape0 (board : Board) : Nat := board.length

/-- `board.shape[1]` of the numpy array: number of columns. -/
def shape1 (board : Board) : Nat := (board.headD []).length

/-- `0 in board`. -/
def contains0 (board : Board) : Bool :=
  board.any fun row => row.contains 0

/-- `np.argwhere(board == 0)`: positions of the zero cells in row-major
order. -/
def argwhere0 (board : Board) : List Pos :=
  (List.range board.length).flatMap fun r =>
    (List.range ((board.getD r []).length)).filterMap fun c =>
      if (board.getD r []).getD c 0 = 0 then some (r, c) else none

/-- All in-shape index pairs of a board, row-major (used to count the
zero cells). -/
def allIdx (board : Board) : List Pos :=
  (List.range board.length).flatMap fun r =>
    (List.range ((board.getD r []).length)).map fun c => (r, c)

/-- Domain lookup `domains[p]`; total with default `[]` (the solver only
ever looks up keys that are present, so the default is never observable
on the executions the claims are about). -/
def dget (domains : DomainsT) (p : Pos) : List Nat :=
  ((domains.find? fun e => e.1 == p).map Prod.snd).getD []

/-- Key-membership test `p in domains`. -/
def dmem (domains : DomainsT) (p : Pos) : Bool :=
  (domains.find? fun e => e.1 == p).isSome

/-- Embedding of `is_valid_value` (Sudoku.py lines 4-22): scan the row,
the column and the 3×3 box for cells holding `value`, deduplicating
across the three scans exactly as the `not in conflicts` tests do. -/
def is_valid_value (board : Board) (position : Pos) (value : Nat) :
    Bool × List Pos :=
  let row := position.1
  let col := position.2
  let conf1 : List Pos :=
    (((List.range (shape0 board)).map fun c => (row, c)).filter
      fun q => bget board q == value)
  let conf2 : List Pos :=
    conf1 ++ (((List.range (shape1 board)).map fun r => (r, col)).filter
      fun q => bget board q == value && !(conf1.contains q))
  let startRow := row - row % 3
  let startCol := col - col % 3
  let boxCells : List Pos :=
    (List.range 3).flatMap fun i =>
      (List.range 3).map fun j => (startRow + i, startCol + j)
  let conf3 : List Pos :=
    conf2 ++ (boxCells.filter fun q => bget board q == value && !(conf2.contains q))
  (conf3.length == 0, conf3)

/-- First-occurrence deduplication with a seen-accumulator, embedding the
key set of the Python dict comprehension `{value: 0 for value in values}`
(keys appear in first-occurrence order). -/
def firstDedupAux (seen : List Nat) : List Nat → List Nat
  | [] => []
  | x :: xs =>
    if seen.contains x then firstDedupAux seen xs
    else x :: firstDedupAux (x :: seen) xs

/-- Keys of the Python dict `{value: 0 for value in values}`. -/
def firstDedup (values : List Nat) : List Nat := firstDedupAux [] values

/-- Embedding of `sorted_values` (lines 24-40).  `affected value` counts,
over every occurrence of `value` in the candidate list and every entry of
`unassigned`, how often `value` lies in that entry's domain — exactly the
increments performed by the nested Python loops.  Python's `sorted` is a
stable ascending sort by key; `List.insertionSort` with the reflexive
key-comparison relation is extensionally the same stable sort. -/
def sorted_values (domains : DomainsT) (unassigned : List Pos)
    (position : Pos) : List Nat :=
  let values := dget domains position
  let affected : Nat → Nat := fun value =>
    (values.countP fun w => w == value) *
      (unassigned.countP fun u => (dget domains u).contains value)
  List.insertionSort (fun a b => affected a ≤ affected b) (firstDedup values)

/-- `get_horizontal` (lines 120-128). -/
def get_horizontal (position : Pos) (unassigned : List Pos) : List Pos :=
  unassigned.filter fun q => q.1 == position.1

/-- `get_vertical` (lines 131-139). -/
def get_vertical (position : Pos) (unassigned : List Pos) : List Pos :=
  unassigned.filter fun q => q.2 == position.2

/-- `get_box` (lines 142-153). -/
def get_box (position : Pos) (unassigned : List Pos) : List Pos :=
  let startRow := position.1 - position.1 % 3
  let startCol := position.2 - position.2 % 3
  unassigned.filter fun q =>
    (decide (startRow ≤ q.1) && decide (q.1 < startRow + 3)) &&
      (decide (startCol ≤ q.2) && decide (q.2 < startCol + 3))

/-- `remove_value` (lines 105-117): for each position of `region` that is
a key of `domains`, filter the assigned value out of its candidate
list. -/
def remove_value (domains : DomainsT) (value : Nat) (region : List Pos) :
    DomainsT :=
  region.foldl
    (fun d r =>
      if dmem d r then
        d.map fun e => if e.1 = r then (e.1, e.2.filter fun w => w ≠ value) else e
      else d)
    domains

/-- `forward_checking` (lines 76-89).  `np.unique(..., axis=0)` sorts and
deduplicates the concatenated region; since `remove_value` is insensitive
to the order and multiplicity of the region, `List.dedup` gives the same
resulting table.  The `copy.deepcopy` is the identity in this pure
embedding. -/
def forward_checking (domains : DomainsT) (unassigned : List Pos)
    (position : Pos) (value : Nat) : DomainsT :=
  remove_value domains value
    ((get_horizontal position unassigned ++ get_vertical position unassigned ++
        get_box position unassigned).dedup)

/-- `get_domains` (lines 92-102): every zero cell gets the candidate list
`[1, ..., 9]`, keys in the row-major order of `np.argwhere`. -/
def get_domains (board : Board) : DomainsT :=
  (argwhere0 board).map fun p => (p, List.range' 1 9)

/-- The body of the `for value in values` loop of `solve` (lines 60-71),
parameterised by the recursive solver `recur`.  The result pair carries
the Python return value `(Option Board × Bool)` together with the final
state of the in-place mutated board.  Note the forward-checking dead-end
branch continues with the tentatively assigned board (the source does not
clear `board[position]` there), and that after a failed recursive call
only `position` is cleared on the board state the call left behind. -/
def solveVals
    (recur : Board → Option DomainsT → (Option Board × Bool) × Board)
    (domains : DomainsT) (unassigned : List Pos) (position : Pos) :
    Board → List Nat → (Option Board × Bool) × Board
  | board, [] => ((none, false), board)
  | board, value :: values =>
    if (is_valid_value board position value).1 = false then
      solveVals recur domains unassigned position board values
    else
      let board1 := bset board position value
      let newDomains := forward_checking domains unassigned position value
      if unassigned.any fun d => (dget newDomains d).length == 0 then
        solveVals recur domains unassigned position board1 values
      else
        let r := recur board1 (some newDomains)
        if r.1.2 = true then ((r.1.1, true), r.2)
        else solveVals recur domains unassigned position (bset r.2 position 0) values

/-- Embedding of `solve` (lines 43-73) with explicit recursion fuel.
The `for position in unassigned_sorted` loop returns unconditionally at
the end of its first iteration, so only the head of the MRV-sorted list
is ever processed; Python's stable `sorted` by domain size is embedded by
`List.insertionSort` with the key comparison.  The fuel is consumed once
per recursive call; the success test precedes the fuel test, as the
source tests `not 0 in board` first. -/
def solveF : Nat → Board → Option DomainsT → (Option Board × Bool) × Board :=
  Nat.rec (motive := fun _ => Board → Option DomainsT → (Option Board × Bool) × Board)
    (fun board _ =>
      if contains0 board = false then ((some board, true), board)
      else ((none, false), board))
    (fun _ ih board odomains =>
      if contains0 board = false then ((some board, true), board)
      else
        let domains := odomains.getD (get_domains board)
        let unassigned := argwhere0 board
        let us := List.insertionSort
          (fun a b => (dget domains a).length ≤ (dget domains b).length) unassigned
        match us with
        | [] => ((none, false), board)
        | position :: _ =>
          solveVals (fun b od => ih b od) domains unassigned position
            board (sorted_values domains unassigned position))

/-- Number of empty cells; used as the fuel of `solve`.  Every recursive
call of the Python `solve` strictly decreases the number of zero cells of
the board it receives, so this fuel is never exhausted on a real run (the
concrete-run theorems below additionally hold for every larger fuel). -/
def countZeros (board : Board) : Nat := (argwhere0 board).length

/-- Top-level `solve`. -/
def solve (board : Board) (odomains : Option DomainsT) :
    (Option Board × Bool) × Board :=
  solveF (countZeros board) board odomains

/-- The solved reference grid `pre_solved` (lines 196-204). -/
def pre_solved : Board :=
  [[5, 3, 4, 6, 7, 8, 9, 1, 2],
   [6, 7, 2, 1, 9, 5, 3, 4, 8],
   [1, 9, 8, 3, 4, 2, 5, 6, 7],
   [8, 5, 9, 7, 6, 1, 4, 2, 3],
   [4, 2, 6, 8, 5, 3, 7, 9, 1],
   [7, 1, 3, 9, 2, 4, 8, 5, 6],
   [9, 6, 1, 5, 3, 7, 2, 8, 4],
   [2, 8, 7, 4, 1, 9, 6, 3, 5],
   [3, 4, 5, 2, 8, 6, 1, 7, 9]]

/-- Board holding a single 5 at cell (0,0); the queried cell itself is the
only conflict for placing another 5 there. -/
def board_c4 : Board :=
  [[5, 0, 0, 0, 0, 0, 0, 0, 0],
   [0, 0, 0, 0, 0, 0, 0, 0, 0],
   [0, 0, 0, 0, 0, 0, 0, 0, 0],
   [0, 0, 0, 0, 0, 0, 0, 0, 0],
   [0, 0, 0, 0, 0, 0, 0, 0, 0],
   [0, 0, 0, 0, 0, 0, 0, 0, 0],
   [0, 0, 0, 0, 0, 0, 0, 0, 0],
   [0, 0, 0, 0, 0, 0, 0, 0, 0],
   [0, 0, 0, 0, 0, 0, 0, 0, 0]]

/-- A full board of twos: no cell is 0, so `solve` returns it unchanged
with the success flag, although it is not a valid grid. -/
def board_allTwos : Board := List.replicate 9 (List.replicate 9 2)

/-- `pre_solved` with all of row 0 cleared: a conflict-free board whose
unique valid completion is `pre_solved` itself. -/
def board_rowCleared : Board :=
  [[0, 0, 0, 0, 0, 0, 0, 0, 0],
   [6, 7, 2, 1, 9, 5, 3, 4, 8],
   [1, 9, 8, 3, 4, 2, 5, 6, 7],
   [8, 5, 9, 7, 6, 1, 4, 2, 3],
   [4, 2, 6, 8, 5, 3, 7, 9, 1],
   [7, 1, 3, 9, 2, 4, 8, 5, 6],
   [9, 6, 1, 5, 3, 7, 2, 8, 4],
   [2, 8, 7, 4, 1, 9, 6, 3, 5],
   [3, 4, 5, 2, 8, 6, 1, 7, 9]]

/-- `pre_solved` with cell (0,8) cleared. -/
def board_lastCell : Board :=
  [[5, 3, 4, 6, 7, 8, 9, 1, 0],
   [6, 7, 2, 1, 9, 5, 3, 4, 8],
   [1, 9, 8, 3, 4, 2, 5, 6, 7],
   [8, 5, 9, 7, 6, 1, 4, 2, 3],
   [4, 2, 6, 8, 5, 3, 7, 9, 1],
   [7, 1, 3, 9, 2, 4, 8, 5, 6],
   [9, 6, 1, 5, 3, 7, 2, 8, 4],
   [2, 8, 7, 4, 1, 9, 6, 3, 5],
   [3, 4, 5, 2, 8, 6, 1, 7, 9]]

/-- Domain table of the recursive invocation that `solve board_rowCleared`
performs at its deepest level: the one remaining cell (0,8) has the single
candidate 2. -/
def domains_c1 : DomainsT := [(((0 : Nat), (8 : Nat)), [2])]

/-- `pre_solved` with cell (0,0) cleared (a one-hole puzzle). -/
def board_oneHole : Board :=
  [[0, 3, 4, 6, 7, 8, 9, 1, 2],
   [6, 7, 2, 1, 9, 5, 3, 4, 8],
   [1, 9, 8, 3, 4, 2, 5, 6, 7],
   [8, 5, 9, 7, 6, 1, 4, 2, 3],
   [4, 2, 6, 8, 5, 3, 7, 9, 1],
   [7, 1, 3, 9, 2, 4, 8, 5, 6],
   [9, 6, 1, 5, 3, 7, 2, 8, 4],
   [2, 8, 7, 4, 1, 9, 6, 3, 5],
   [3, 4, 5, 2, 8, 6, 1, 7, 9]]

/-- A conflict-free board with no valid completion: row 0 forces cell
(0,8) to be 9, but column 8 already holds a 9 at (1,8). -/
def board_unsolvable : Board :=
  [[1, 2, 3, 4, 5, 6, 7, 8, 0],
   [0, 0, 0, 0, 0, 0, 0, 0, 9],
   [0, 0, 0, 0, 0, 0, 0, 0, 0],
   [0, 0, 0, 0, 0, 0, 0, 0, 0],
   [0, 0, 0, 0, 0, 0, 0, 0, 0],
   [0, 0, 0, 0, 0, 0, 0, 0, 0],
   [0, 0, 0, 0, 0, 0, 0, 0, 0],
   [0, 0, 0, 0, 0, 0, 0, 0, 0],
   [0, 0, 0, 0, 0, 0, 0, 0, 0]]

/-! ### Specification predicates -/

/-- The position is inside the 9×9 grid. -/
def inB (p : Pos) : Prop := p.1 < 9 ∧ p.2 < 9

/-- The two positions share a row, a column or a 3×3 block. -/
def sameUnit (p q : Pos) : Prop :=
  p.1 = q.1 ∨ p.2 = q.2 ∨ (p.1 / 3 = q.1 / 3 ∧ p.2 / 3 = q.2 / 3)

/-- Well-formed 9×9 board: 9 rows of 9 cells, every cell a digit 0-9. -/
def BoardWF (b : Board) : Prop :=
  b.length = 9 ∧ ∀ row ∈ b, row.length = 9 ∧ ∀ x ∈ row, x ≤ 9

/-- All 81 positions of the grid, row-major. -/
def allPos : List Pos :=
  (List.range 9).flatMap fun r => (List.range 9).map fun c => (r, c)

/-- The non-zero cells form a conflict-free partial assignment: no two
distinct cells sharing a row, column or block hold the same non-zero
value. -/
def conflictFree (b : Board) : Prop :=
  ∀ p ∈ allPos, ∀ q ∈ allPos,
    p ≠ q → sameUnit p q → bget b p ≠ 0 → bget b p ≠ bget b q

/-- A list of cell values contains each digit 1-9 exactly once. -/
def validUnit (l : List Nat) : Prop :=
  ∀ d ∈ List.range' 1 9, l.count d = 1

/-- Positions of row `i`. -/
def rowCells (i : Nat) : List Pos :=
  (List.range 9).map fun c => (i, c)

/-- Positions of column `j`. -/
def colCells (j : Nat) : List Pos :=
  (List.range 9).map fun r => (r, j)

/-- Values of row `i`. -/
def rowList (b : Board) (i : Nat) : List Nat :=
  (rowCells i).map fun p => bget b p

/-- Values of column `j`. -/
def colList (b : Board) (j : Nat) : List Nat :=
  (colCells j).map fun p => bget b p

/-- Positions of block `k` (blocks numbered 0-8, row-major). -/
def boxCells (k : Nat) : List Pos :=
  (List.range 3).flatMap fun i =>
    (List.range 3).map fun j => (3 * (k / 3) + i, 3 * (k % 3) + j)

/-- Values of block `k`. -/
def boxList (b : Board) (k : Nat) : List Nat :=
  (boxCells k).map fun p => bget b p

/-- Every row, column and block contains each digit 1-9 exactly once. -/
def validGrid (b : Board) : Prop :=
  ∀ i ∈ List.range 9,
    validUnit (rowList b i) ∧ validUnit (colList b i) ∧ validUnit (boxList b i)

/-- `b` agrees with `b0` on every cell that is non-zero in `b0`. -/
def agrees (b0 b : Board) : Prop :=
  ∀ p : Pos, bget b0 p ≠ 0 → bget b p = bget b0 p

/-- The two boards have identical row structure. -/
def sameShape (b0 b : Board) : Prop :=
  b.length = b0.length ∧ ∀ r : Nat, (b.getD r []).length = (b0.getD r []).length

/-- Every candidate value in the table is a digit 1-9. -/
def DWF (d : DomainsT) : Prop :=
  ∀ p : Pos, ∀ v ∈ dget d p, 1 ≤ v ∧ v ≤ 9

/-- `DWF` for an optional table argument. -/
def ODWF (od : Option DomainsT) : Prop :=
  ∀ d, od = some d → DWF d

/-- Unconditional postcondition of a `solve` call on entry board `b0`:
the final board state only extends the non-zero cells of `b0` and keeps
its shape; the returned board on success is exactly the final state, a
zero-free board; failure returns no board. -/
def SolveOutU (b0 : Board) (r : (Option Board × Bool) × Board) : Prop :=
  agrees b0 r.2 ∧ sameShape b0 r.2 ∧
    (r.1.2 = true → r.1.1 = some r.2 ∧ contains0 r.2 = false) ∧
    (r.1.2 = false → r.1.1 = none)

/-- Postcondition of a `solve` call on a well-formed conflict-free entry
board `b0`: in addition to `SolveOutU`, the final board state is again
well-formed and conflict-free. -/
def SolveOut (b0 : Board) (r : (Option Board × Bool) × Board) : Prop :=
  BoardWF r.2 ∧ conflictFree r.2 ∧ SolveOutU b0 r

instance decidable_inB (p : Pos) : Decidable (inB p) :=
  inferInstanceAs (Decidable (p.1 < 9 ∧ p.2 < 9))

instance decidable_sameUnit (p q : Pos) : Decidable (sameUnit p q) :=
  inferInstanceAs (Decidable (p.1 = q.1 ∨ p.2 = q.2 ∨
    (p.1 / 3 = q.1 / 3 ∧ p.2 / 3 = q.2 / 3)))

instance decidable_BoardWF (b : Board) : Decidable (BoardWF b) :=
  inferInstanceAs (Decidable (b.length = 9 ∧ ∀ row ∈ b, row.length = 9 ∧
    ∀ x ∈ row, x ≤ 9))

instance decidable_conflictFree (b : Board) : Decidable (conflictFree b) :=
  inferInstanceAs (Decidable (∀ p ∈ allPos, ∀ q ∈ allPos,
    p ≠ q → sameUnit p q → bget b p ≠ 0 → bget b p ≠ bget b q))

instance decidable_validUnit (l : List Nat) : Decidable (validUnit l) :=
  inferInstanceAs (Decidable (∀ d ∈ List.range' 1 9, l.count d = 1))

instance decidable_validGrid (b : Board) : Decidable (validGrid b) :=
  inferInstanceAs (Decidable (∀ i ∈ List.range 9, validUnit (rowList b i) ∧
    validUnit (colList b i) ∧ validUnit (boxList b i)))

/-! ### Basic board lemmas -/

theorem bget_def (b : Board) (p : Pos) :
    bget b p = (b.getD p.1 []).getD p.2 0 := rfl

theorem bget_bset_same {b : Board} {p : Pos} {v : Nat}
    (h1 : p.1 < b.length) (h2 : p.2 < (b.getD p.1 []).length) :
    bget (bset b p v) p = v := by
  simp only [bget, bset, List.getD_eq_getElem?_getD] at h2 ⊢
  rw [List.getElem?_set_self h1, Option.getD_some, List.getElem?_set_self h2,
    Option.getD_some]

theorem bget_bset_ne {b : Board} {p q : Pos} {v : Nat} (h : q ≠ p) :
    bget (bset b p v) q = bget b q := by
  rcases eq_or_ne q.1 p.1 with h1 | h1
  · have h2 : q.2 ≠ p.2 := fun h2 => h (Prod.ext h1 h2)
    simp only [bget, bset, List.getD_eq_getElem?_getD, h1]
    rw [List.getElem?_set_self']
    cases hrow : b[p.1]? with
    | none => simp
    | some row =>
      simp [List.getElem?_set_ne (Ne.symm h2)]
  · simp only [bget, bset, List.getD_eq_getElem?_getD]
    rw [List.getElem?_set_ne (Ne.symm h1)]

theorem length_bset (b : Board) (p : Pos) (v : Nat) :
    (bset b p v).length = b.length := by
  simp [bset]

theorem sameShape_refl (b : Board) : sameShape b b := ⟨rfl, fun _ => rfl⟩

theorem sameShape_trans {a b c : Board} (h1 : sameShape a b) (h2 : sameShape b c) :
    sameShape a c :=
  ⟨h2.1.trans h1.1, fun r => (h2.2 r).trans (h1.2 r)⟩

theorem sameShape_bset {b : Board} (p : Pos) (v : Nat) : sameShape b (bset b p v) := by
  refine ⟨length_bset b p v, fun r => ?_⟩
  simp only [bset, List.getD_eq_getElem?_getD]
  rcases eq_or_ne r p.1 with h | h
  · rw [h, List.getElem?_set_self']
    cases hrow : b[p.1]? with
    | none => simp
    | some row => simp [hrow]
  · rw [List.getElem?_set_ne (Ne.symm h)]

theorem agrees_refl (b : Board) : agrees b b := fun _ _ => rfl

theorem agrees_trans {a b c : Board} (h1 : agrees a b) (h2 : agrees b c) :
    agrees a c := fun p hp => by
  rw [h2 p (by rw [h1 p hp]; exact hp), h1 p hp]

/-- Membership in `np.argwhere(board == 0)`. -/
theorem mem_argwhere0 {b : Board} {p : Pos} :
    p ∈ argwhere0 b ↔
      p.1 < b.length ∧ p.2 < (b.getD p.1 []).length ∧ bget b p = 0 := by
  cases p with
  | mk r c =>
    simp only [argwhere0, List.mem_flatMap, List.mem_filterMap, List.mem_range]
    constructor
    · rintro ⟨r1, hr1, c1, hc1, hif⟩
      by_cases h0 : (b.getD r1 []).getD c1 0 = 0
      · rw [if_pos h0] at hif
        simp only [Option.some.injEq, Prod.mk.injEq] at hif
        obtain ⟨he1, he2⟩ := hif
        subst he1; subst he2
        exact ⟨hr1, hc1, h0⟩
      · rw [if_neg h0] at hif
        cases hif
    · rintro ⟨hr, hc, h0⟩
      rw [bget_def] at h0
      exact ⟨r, hr, c, hc, by rw [if_pos h0]⟩

/-! ### Characterisation of `is_valid_value` -/

theorem shape0_eq {b : Board} (h : BoardWF b) : shape0 b = 9 := h.1

theorem shape1_eq {b : Board} (h : BoardWF b) : shape1 b = 9 := by
  obtain ⟨h1, h2⟩ := h
  cases b with
  | nil => simp at h1
  | cons r t => exact (h2 r (by simp)).1

theorem mem_append_filter_dedup {l1 l2 : List Pos} {f : Pos → Bool} (q : Pos) :
    (q ∈ l1 ++ l2.filter fun x => f x && !(l1.contains x)) ↔
      (q ∈ l1 ∨ (q ∈ l2 ∧ f q = true)) := by
  simp only [List.mem_append, List.mem_filter, Bool.and_eq_true, Bool.not_eq_true',
    List.contains, List.elem_eq_mem, decide_eq_false_iff_not]
  by_cases hq : q ∈ l1 <;> simp [hq]

theorem mem_scanRow {b : Board} {p : Pos} {v : Nat} (q : Pos) :
    (q ∈ ((List.range (shape0 b)).map fun c => (p.1, c)).filter
        fun x => bget b x == v) ↔
      (q.1 = p.1 ∧ q.2 < shape0 b ∧ bget b q = v) := by
  simp only [List.mem_filter, List.mem_map, List.mem_range, beq_iff_eq]
  constructor
  · rintro ⟨⟨c, hc, rfl⟩, hv⟩
    exact ⟨rfl, hc, hv⟩
  · rintro ⟨h1, h2, h3⟩
    exact ⟨⟨q.2, h2, by rw [← h1]⟩, h3⟩

theorem mem_scanCol {b : Board} {p : Pos} (q : Pos) :
    (q ∈ (List.range (shape1 b)).map fun r => (r, p.2)) ↔
      (q.2 = p.2 ∧ q.1 < shape1 b) := by
  simp only [List.mem_map, List.mem_range]
  constructor
  · rintro ⟨r, hr, rfl⟩
    exact ⟨rfl, hr⟩
  · rintro ⟨hq, hr⟩
    exact ⟨q.1, hr, by rw [← hq]⟩

theorem mem_scanBox {p : Pos} (q : Pos) :
    (q ∈ (List.range 3).flatMap fun i => (List.range 3).map fun j =>
        (p.1 - p.1 % 3 + i, p.2 - p.2 % 3 + j)) ↔
      (p.1 - p.1 % 3 ≤ q.1 ∧ q.1 < p.1 - p.1 % 3 + 3 ∧
        p.2 - p.2 % 3 ≤ q.2 ∧ q.2 < p.2 - p.2 % 3 + 3) := by
  simp only [List.mem_flatMap, List.mem_map, List.mem_range]
  constructor
  · rintro ⟨i, hi, j, hj, rfl⟩
    refine ⟨?_, ?_, ?_, ?_⟩ <;> simp <;> omega
  · rintro ⟨h1, h2, h3, h4⟩
    refine ⟨q.1 - (p.1 - p.1 % 3), by omega, q.2 - (p.2 - p.2 % 3), by omega, ?_⟩
    apply Prod.ext <;> simp <;> omega

theorem mem_conflicts {b : Board} {p : Pos} {v : Nat} (hWF : BoardWF b)
    (hp : inB p) (q : Pos) :
    q ∈ (is_valid_value b p v).2 ↔ (inB q ∧ sameUnit p q ∧ bget b q = v) := by
  have h0 := shape0_eq hWF
  have h1 := shape1_eq hWF
  obtain ⟨hp1, hp2⟩ := hp
  simp only [is_valid_value]
  rw [mem_append_filter_dedup, mem_append_filter_dedup, mem_scanRow, mem_scanCol,
    mem_scanBox, h0, h1]
  simp only [beq_iff_eq, inB, sameUnit]
  constructor
  · rintro ((⟨e1, e2, e3⟩ | ⟨⟨e1, e2⟩, e3⟩) | ⟨⟨e1, e2, e3, e4⟩, e5⟩)
    · exact ⟨⟨by omega, e2⟩, Or.inl e1.symm, e3⟩
    · exact ⟨⟨e2, by omega⟩, Or.inr (Or.inl e1.symm), e3⟩
    · exact ⟨⟨by omega, by omega⟩, Or.inr (Or.inr ⟨by omega, by omega⟩), e5⟩
  · rintro ⟨⟨hq1, hq2⟩, hu, hv⟩
    rcases hu with h | h | ⟨ha, hb⟩
    · exact Or.inl (Or.inl ⟨h.symm, by omega, hv⟩)
    · exact Or.inl (Or.inr ⟨⟨h.symm, by omega⟩, hv⟩)
    · exact Or.inr ⟨⟨by omega, by omega, by omega, by omega⟩, hv⟩

theorem not_mem_of_mem_filter_dedup {l1 l2 : List Pos} {f : Pos → Bool} {q : Pos}
    (h : q ∈ l2.filter fun x => f x && !(l1.contains x)) : q ∉ l1 := by
  rw [List.mem_filter] at h
  intro hq
  have hc : l1.contains q = true := List.elem_eq_true_of_mem hq
  simp [hc] at h
  exact h.2.2 hq

theorem conflicts_nodup (b : Board) (p : Pos) (v : Nat) :
    (is_valid_value b p v).2.Nodup := by
  simp only [is_valid_value]
  have hinj1 : Function.Injective (fun c => ((p.1, c) : Pos)) := by
    intro a c h
    simpa using h
  have hinj2 : Function.Injective (fun r => ((r, p.2) : Pos)) := by
    intro a c h
    simpa using h
  have hn1 : (((List.range (shape0 b)).map fun c => ((p.1, c) : Pos)).filter
      fun q => bget b q == v).Nodup :=
    ((List.nodup_range _).map hinj1).filter _
  have hnbox : ((List.range 3).flatMap fun i => (List.range 3).map fun j =>
      ((p.1 - p.1 % 3 + i, p.2 - p.2 % 3 + j) : Pos)).Nodup := by
    rw [List.nodup_flatMap]
    constructor
    · intro i _
      refine (List.nodup_range _).map ?_
      intro a c h
      simpa using h
    · have := List.nodup_range (n := 3)
      refine this.imp ?_
      intro i j hij
      intro s hs1 hs2
      simp only [List.mem_map, List.mem_range] at hs1 hs2
      obtain ⟨a, _, ha⟩ := hs1
      obtain ⟨c, _, hc⟩ := hs2
      rw [← ha] at hc
      simp only [Prod.mk.injEq] at hc
      omega
  refine List.Nodup.append (List.Nodup.append hn1 ?_ ?_) (hnbox.filter _) ?_
  · exact ((List.nodup_range _).map hinj2).filter _
  · exact fun q hq1 hq2 => not_mem_of_mem_filter_dedup hq2 hq1
  · exact fun q hq1 hq2 => not_mem_of_mem_filter_dedup hq2 hq1

theorem valid_true_iff {b : Board} {p : Pos} {v : Nat} (hWF : BoardWF b)
    (hp : inB p) :
    (is_valid_value b p v).1 = true ↔
      ∀ q, inB q → sameUnit p q → bget b q ≠ v := by
  have hmem := mem_conflicts (v := v) hWF hp
  have hfst : (is_valid_value b p v).1 = ((is_valid_value b p v).2.length == 0) := rfl
  rw [hfst, beq_iff_eq, List.length_eq_zero]
  constructor
  · intro h q hq hu hv
    have : q ∈ (is_valid_value b p v).2 := (hmem q).2 ⟨hq, hu, hv⟩
    rw [h] at this
    cases this
  · intro h
    rw [List.eq_nil_iff_forall_not_mem]
    intro q hq
    obtain ⟨h1, h2, h3⟩ := (hmem q).1 hq
    exact h q h1 h2 h3

/-! ## Claim C4 -/

/-- C4 (corrected): for every well-formed board and in-range position,
`is_valid_value` returns `true` exactly when no cell of the row, column
or 3×3 block of the position — including the queried position itself —
holds the value, and the conflict list is exactly the duplicate-free list
of all such cells currently holding the value.  The original claim, which
excluded the queried position from consideration, is refuted by
`claim_C4_counterexample`. -/
theorem claim_C4_is_valid_value {b : Board} {p : Pos} {v : Nat}
    (hWF : BoardWF b) (hp : inB p) :
    ((is_valid_value b p v).1 = true ↔
        ∀ q, inB q → sameUnit p q → bget b q ≠ v) ∧
      (∀ q, q ∈ (is_valid_value b p v).2 ↔
        (inB q ∧ sameUnit p q ∧ bget b q = v)) ∧
      (is_valid_value b p v).2.Nodup :=
  ⟨valid_true_iff hWF hp, mem_conflicts hWF hp, conflicts_nodup b p v⟩

/-- C4 counterexample: on a board whose only 5 is at the queried cell
(0,0) itself, no cell other than the queried one holds a 5, yet
`is_valid_value` answers `false` with conflict list [(0,0)] — refuting
the claim that the answer is `true` with an empty conflict list whenever
no cell other than the queried position conflicts. -/
theorem claim_C4_counterexample :
    (is_valid_value board_c4 (0, 0) 5).1 = false ∧
      (is_valid_value board_c4 (0, 0) 5).2 = [(0, 0)] ∧
      ∀ q ∈ allPos, q ≠ (0, 0) → bget board_c4 q ≠ 5 := by
  decide

/-- C4 witness: the characterisation applied to `pre_solved` at (0,0)
with value 3. -/
theorem claim_C4_witness :
    BoardWF pre_solved ∧ inB (0, 0) ∧
      ((is_valid_value pre_solved ((0 : Nat), (0 : Nat)) 3).1 = true ↔
        ∀ q, inB q → sameUnit (0, 0) q → bget pre_solved q ≠ 3) :=
  ⟨by decide, by decide, (claim_C4_is_valid_value (by decide) (by decide)).1⟩

/-! ### Domain table lemmas -/

theorem dget_cons (k : Pos) (xs : List Nat) (t : DomainsT) (q : Pos) :
    dget ((k, xs) :: t) q = if k = q then xs else dget t q := by
  by_cases h : k = q
  · simp [dget, List.find?_cons_of_pos, h]
  · rw [if_neg h]
    unfold dget
    rw [List.find?_cons_of_neg]
    simpa using h

theorem dmem_cons (k : Pos) (xs : List Nat) (t : DomainsT) (q : Pos) :
    dmem ((k, xs) :: t) q = if k = q then true else dmem t q := by
  by_cases h : k = q
  · simp [dmem, List.find?_cons_of_pos, h]
  · rw [if_neg h]
    unfold dmem
    rw [List.find?_cons_of_neg]
    simpa using h

theorem dget_eq_nil_of_dmem_false {d : DomainsT} {q : Pos}
    (h : dmem d q = false) : dget d q = [] := by
  unfold dmem at h
  unfold dget
  cases hf : d.find? fun e => e.1 == q with
  | none => rfl
  | some e => rw [hf] at h; simp at h

theorem map_update_cons (k : Pos) (xs : List Nat) (t : DomainsT) (r : Pos)
    (g : List Nat → List Nat) :
    (((k, xs) :: t).map fun e => if e.1 = r then (e.1, g e.2) else e) =
      (if k = r then ((k, g xs) : Pos × List Nat) else (k, xs)) ::
        (t.map fun e => if e.1 = r then (e.1, g e.2) else e) := by
  simp only [List.map_cons]

theorem dget_map_update_ne {d : DomainsT} {r q : Pos} (h : q ≠ r)
    (g : List Nat → List Nat) :
    dget (d.map fun e => if e.1 = r then (e.1, g e.2) else e) q = dget d q := by
  induction d with
  | nil => rfl
  | cons e t ih =>
    obtain ⟨k, xs⟩ := e
    rw [map_update_cons]
    by_cases hk : k = r
    · rw [if_pos hk, dget_cons, dget_cons, if_neg (hk ▸ fun hh => h hh.symm),
        if_neg (fun hh => h (hk ▸ hh.symm))]
      exact ih
    · rw [if_neg hk, dget_cons, dget_cons]
      by_cases hq : k = q
      · rw [if_pos hq, if_pos hq]
      · rw [if_neg hq, if_neg hq]
        exact ih

theorem dget_map_update_self {d : DomainsT} {r : Pos}
    (g : List Nat → List Nat) (h : dmem d r = true) :
    dget (d.map fun e => if e.1 = r then (e.1, g e.2) else e) r = g (dget d r) := by
  induction d with
  | nil => simp [dmem] at h
  | cons e t ih =>
    obtain ⟨k, xs⟩ := e
    rw [map_update_cons]
    by_cases hk : k = r
    · rw [if_pos hk, dget_cons, dget_cons, if_pos hk, if_pos hk]
    · rw [if_neg hk, dget_cons, dget_cons, if_neg hk, if_neg hk]
      apply ih
      rw [dmem_cons, if_neg hk] at h
      exact h

theorem dmem_map_update (d : DomainsT) (r q : Pos) (g : List Nat → List Nat) :
    dmem (d.map fun e => if e.1 = r then (e.1, g e.2) else e) q = dmem d q := by
  induction d with
  | nil => rfl
  | cons e t ih =>
    obtain ⟨k, xs⟩ := e
    rw [map_update_cons]
    by_cases hk : k = r
    · rw [if_pos hk, dmem_cons, dmem_cons]
      by_cases hq : k = q
      · rw [if_pos hq, if_pos hq]
      · rw [if_neg hq, if_neg hq]
        exact ih
    · rw [if_neg hk, dmem_cons, dmem_cons]
      by_cases hq : k = q
      · rw [if_pos hq, if_pos hq]
      · rw [if_neg hq, if_neg hq]
        exact ih

theorem remove_value_cons (d : DomainsT) (v : Nat) (r : Pos) (rs : List Pos) :
    remove_value d v (r :: rs) =
      remove_value
        (if dmem d r then
          d.map fun e => if e.1 = r then (e.1, e.2.filter fun w => w ≠ v) else e
        else d) v rs := rfl

theorem remove_value_frame {q : Pos} (v : Nat) (region : List Pos)
    (h : q ∉ region) :
    ∀ d : DomainsT, dget (remove_value d v region) q = dget d q := by
  induction region with
  | nil => intro d; rfl
  | cons r rs ih =>
    intro d
    have hq : q ≠ r := fun hh => h (hh ▸ List.mem_cons_self r rs)
    have hrs : q ∉ rs := fun hh => h (List.mem_cons_of_mem r hh)
    rw [remove_value_cons, ih hrs]
    by_cases hd : dmem d r
    · rw [if_pos hd, dget_map_update_ne hq]
    · rw [if_neg hd]

theorem dmem_remove_value (v : Nat) (region : List Pos) (q : Pos) :
    ∀ d : DomainsT, dmem (remove_value d v region) q = dmem d q := by
  induction region with
  | nil => intro d; rfl
  | cons r rs ih =>
    intro d
    rw [remove_value_cons, ih]
    by_cases hd : dmem d r
    · rw [if_pos hd, dmem_map_update]
    · rw [if_neg hd]

theorem remove_value_removes {q : Pos} (v : Nat) (region : List Pos)
    (h : q ∈ region) :
    ∀ d : DomainsT, v ∉ dget (remove_value d v region) q := by
  induction region with
  | nil => cases h
  | cons r rs ih =>
    intro d
    by_cases hrs : q ∈ rs
    · rw [remove_value_cons]
      exact ih hrs _
    · have hq : q = r := by
        rcases List.mem_cons.1 h with hh | hh
        · exact hh
        · exact absurd hh hrs
      subst hq
      rw [remove_value_cons, remove_value_frame v rs hrs]
      by_cases hd : dmem d q
      · rw [if_pos hd, dget_map_update_self _ hd]
        intro hv
        rw [List.mem_filter] at hv
        simp at hv
      · rw [if_neg hd, dget_eq_nil_of_dmem_false (by simpa using hd)]
        intro hv
        cases hv

/-- Values surviving `remove_value` were already present. -/
theorem remove_value_subset (v : Nat) (region : List Pos) (q : Pos) :
    ∀ d : DomainsT, dget (remove_value d v region) q ⊆ dget d q := by
  induction region with
  | nil => intro d x hx; exact hx
  | cons r rs ih =>
    intro d
    rw [remove_value_cons]
    refine (ih _).trans ?_
    by_cases hd : dmem d r
    · rw [if_pos hd]
      by_cases hq : q = r
      · subst hq
        rw [dget_map_update_self _ hd]
        exact List.filter_subset' _
      · rw [dget_map_update_ne hq]
        exact fun x hx => hx
    · rw [if_neg hd]
      exact fun x hx => hx

/-- The region `np.unique(concat(horizontal, vertical, box))` that
`forward_checking` prunes consists exactly of the unassigned cells sharing
the position's row, column or 3×3 block — including the position itself
when it is listed as unassigned. -/
theorem mem_region_iff {p : Pos} {u : List Pos} {q : Pos} :
    q ∈ (get_horizontal p u ++ get_vertical p u ++ get_box p u).dedup ↔
      (q ∈ u ∧ sameUnit p q) := by
  rw [List.mem_dedup]
  simp only [List.mem_append, get_horizontal, get_vertical, get_box,
    List.mem_filter, beq_iff_eq, Bool.and_eq_true, decide_eq_true_eq, sameUnit]
  constructor
  · rintro ((⟨hu, he⟩ | ⟨hu, he⟩) | ⟨hu, ⟨h1, h2⟩, h3, h4⟩)
    · exact ⟨hu, Or.inl he.symm⟩
    · exact ⟨hu, Or.inr (Or.inl he.symm)⟩
    · exact ⟨hu, Or.inr (Or.inr ⟨by omega, by omega⟩)⟩
  · rintro ⟨hu, h | h | ⟨h1, h2⟩⟩
    · exact Or.inl (Or.inl ⟨hu, h.symm⟩)
    · exact Or.inl (Or.inr ⟨hu, h.symm⟩)
    · exact Or.inr ⟨hu, ⟨by omega, by omega⟩, by omega, by omega⟩

/-! ## Claim C5 -/

/-- C5 (corrected): `forward_checking` returns a new table (the embedding
is pure, so the input table is never mutated), and every entry of a cell
outside the set of unassigned cells sharing the position's row, column or
3×3 block is unchanged — both its candidate list and its key-presence.
The set that is pruned, however, INCLUDES the position itself whenever the
position occurs in `unassigned` (which it always does in `solve`); the
original claim, which excluded the position from the neighbour set, is
refuted by `claim_C5_counterexample`. -/
theorem claim_C5_forward_checking_frame (d : DomainsT) (u : List Pos)
    (p : Pos) (v : Nat) (q : Pos) (h : ¬ (q ∈ u ∧ sameUnit p q)) :
    dget (forward_checking d u p v) q = dget d q ∧
      dmem (forward_checking d u p v) q = dmem d q := by
  unfold forward_checking
  exact ⟨remove_value_frame v _ (fun hm => h (mem_region_iff.1 hm)) d,
    dmem_remove_value v _ q d⟩

/-- C5 counterexample: take the sole unassigned cell (0,0) with domain
[1,2] and forward-check the assignment of 1 at position (0,0) itself.
The cell (0,0) is NOT an "other" neighbour of the position (the claim's
neighbour set excludes the position), yet its entry changes from [1,2] to
[2]: cells outside the claimed neighbour set are not all unchanged. -/
theorem claim_C5_counterexample :
    ¬ (((0, 0) : Pos) ∈ ([((0 : Nat), (0 : Nat))] : List Pos) ∧
        ((0, 0) : Pos) ≠ (0, 0) ∧ sameUnit (0, 0) (0, 0)) ∧
      dget (forward_checking [(((0 : Nat), (0 : Nat)), [1, 2])]
        [((0 : Nat), (0 : Nat))] (0, 0) 1) (0, 0) = [2] ∧
      dget [(((0 : Nat), (0 : Nat)), [1, 2])] (0, 0) = [1, 2] := by
  decide

/-- C5 witness: instantiation of the frame property at a cell far from
the assigned position. -/
theorem claim_C5_witness :
    ¬ (((5, 5) : Pos) ∈ ([((0 : Nat), (0 : Nat))] : List Pos) ∧
        sameUnit (0, 0) (5, 5)) ∧
      dget (forward_checking [(((5 : Nat), (5 : Nat)), [3])]
          [((0 : Nat), (0 : Nat))] (0, 0) 3) (5, 5) =
        dget [(((5 : Nat), (5 : Nat)), [3])] (5, 5) :=
  ⟨by decide,
    (claim_C5_forward_checking_frame [(((5 : Nat), (5 : Nat)), [3])]
      [((0 : Nat), (0 : Nat))] (0, 0) 3 (5, 5) (by decide)).1⟩

/-! ## Claim C6 -/

/-- C6 (confirmed): after `forward_checking`, no unassigned cell sharing
the position's row, column or 3×3 block still lists the assigned value
among its candidates. -/
theorem claim_C6_forward_checking_sound (d : DomainsT) (u : List Pos)
    (p : Pos) (v : Nat) (q : Pos) (hq : q ∈ u) (hs : sameUnit p q) :
    v ∉ dget (forward_checking d u p v) q := by
  unfold forward_checking
  exact remove_value_removes v _ (mem_region_iff.2 ⟨hq, hs⟩) d

/-- C6 witness: the neighbour (0,1) of position (0,0) no longer lists the
assigned value 1. -/
theorem claim_C6_witness :
    (((0, 1) : Pos) ∈ ([((0 : Nat), (1 : Nat))] : List Pos) ∧
        sameUnit (0, 0) (0, 1)) ∧
      1 ∉ dget (forward_checking [(((0 : Nat), (1 : Nat)), [1, 2])]
        [((0 : Nat), (1 : Nat))] (0, 0) 1) (0, 1) :=
  ⟨⟨by decide, by decide⟩,
    claim_C6_forward_checking_sound [(((0 : Nat), (1 : Nat)), [1, 2])]
      [((0 : Nat), (1 : Nat))] (0, 0) 1 (0, 1) (by decide) (by decide)⟩

/-! ## Claim C9 -/

theorem firstDedupAux_of_nodup :
    ∀ {l seen : List Nat}, l.Nodup → (∀ x ∈ l, x ∉ seen) →
      firstDedupAux seen l = l := by
  intro l
  induction l with
  | nil => intro seen _ _; rfl
  | cons x xs ih =>
    intro seen hnd hdisj
    have hc : seen.contains x = false := by
      rw [← Bool.not_eq_true]
      intro hcc
      exact hdisj x (List.mem_cons_self x xs) (List.mem_of_elem_eq_true hcc)
    rw [firstDedupAux, hc]
    simp only [Bool.false_eq_true, if_false]
    refine congrArg (x :: ·) (ih (List.Nodup.of_cons hnd) ?_)
    intro y hy
    rw [List.mem_cons]
    rintro (h | h)
    · subst h
      exact (List.nodup_cons.1 hnd).1 hy
    · exact hdisj y (List.mem_cons_of_mem x hy) h

theorem firstDedup_of_nodup {l : List Nat} (h : l.Nodup) : firstDedup l = l :=
  firstDedupAux_of_nodup h (fun x _ hx => (List.not_mem_nil x) hx)

theorem mem_firstDedupAux :
    ∀ {l seen : List Nat} {x : Nat}, x ∈ firstDedupAux seen l → x ∈ l := by
  intro l
  induction l with
  | nil => intro seen x h; cases h
  | cons y ys ih =>
    intro seen x h
    rw [firstDedupAux] at h
    by_cases hc : seen.contains y = true
    · rw [hc] at h
      simp only [if_true] at h
      exact List.mem_cons_of_mem y (ih h)
    · rw [Bool.not_eq_true] at hc
      rw [hc] at h
      simp only [Bool.false_eq_true, if_false, List.mem_cons] at h
      rcases h with h | h
      · exact h ▸ List.mem_cons_self y ys
      · exact List.mem_cons_of_mem y (ih h)

theorem countP_split {α : Type} (l : List α) (p q : α → Bool) :
    l.countP p = l.countP (fun a => p a && q a) +
      l.countP (fun a => p a && !q a) := by
  induction l with
  | nil => rfl
  | cons a t ih =>
    by_cases hp : p a = true <;> by_cases hq : q a = true <;>
      simp [List.countP_cons, hp, hq, ih] <;> omega

/-- A sort by a numeric key is pairwise ordered by that key. -/
theorem insertionSort_sorted_key {α : Type} (key : α → Nat) (l : List α) :
    (List.insertionSort (fun a b => key a ≤ key b) l).Pairwise
      fun a b => key a ≤ key b := by
  haveI : IsTotal α fun a b => key a ≤ key b := ⟨fun a b => Nat.le_total _ _⟩
  haveI : IsTrans α fun a b => key a ≤ key b :=
    ⟨fun a b c h1 h2 => Nat.le_trans h1 h2⟩
  exact List.sorted_insertionSort _ l

/-- C9 (confirmed): `sorted_values` returns the candidate values of the
selected cell ordered ascending by the number of OTHER unassigned cells
whose domain still contains the value.  The code counts over all entries
of `unassigned` including the position itself, but since every candidate
lies in the position's own domain this inflates every count by the same
constant and yields the same order. -/
theorem claim_C9_sorted_values (domains : DomainsT) (unassigned : List Pos)
    (position : Pos) (hnd : (dget domains position).Nodup) :
    (sorted_values domains unassigned position).Perm
        (dget domains position) ∧
      (sorted_values domains unassigned position).Pairwise fun a b =>
        (unassigned.countP fun u => decide (u ≠ position) &&
            (dget domains u).contains a) ≤
          (unassigned.countP fun u => decide (u ≠ position) &&
            (dget domains u).contains b) := by
  have key : ∀ v ∈ dget domains position,
      ((dget domains position).countP fun w => w == v) *
        (unassigned.countP fun u => (dget domains u).contains v) =
      (unassigned.countP fun u => decide (u = position)) +
        (unassigned.countP fun u => decide (u ≠ position) &&
          (dget domains u).contains v) := by
    intro v hv
    have h1 : ((dget domains position).countP fun w => w == v) = 1 :=
      List.count_eq_one_of_mem hnd hv
    rw [h1, Nat.one_mul,
      countP_split unassigned (fun u => (dget domains u).contains v)
        (fun u => decide (u = position))]
    congr 1
    · apply List.countP_congr
      intro u _
      simp only [Bool.and_eq_true, decide_eq_true_eq]
      constructor
      · exact fun h => h.2
      · intro h
        refine ⟨?_, h⟩
        rw [h]
        exact List.elem_eq_true_of_mem hv
    · apply List.countP_congr
      intro u _
      simp only [Bool.and_eq_true, Bool.not_eq_true', decide_eq_false_iff_not,
        decide_eq_true_eq]
      exact and_comm
  simp only [sorted_values, firstDedup_of_nodup hnd]
  constructor
  · exact List.perm_insertionSort _ _
  · refine List.Pairwise.imp_of_mem ?_
      (insertionSort_sorted_key (fun v =>
        ((dget domains position).countP fun w => w == v) *
          (unassigned.countP fun u => (dget domains u).contains v))
        (dget domains position))
    intro a b ha hb hab
    have hamem : a ∈ dget domains position :=
      (List.perm_insertionSort _ _).mem_iff.1 ha
    have hbmem : b ∈ dget domains position :=
      (List.perm_insertionSort _ _).mem_iff.1 hb
    rw [key a hamem, key b hbmem] at hab
    omega

/-- C9 witness: a concrete two-cell table sorted by the other-cell
counts. -/
theorem claim_C9_witness :
    ([1, 2] : List Nat).Nodup ∧
      (sorted_values [(((0 : Nat), (0 : Nat)), [1, 2]),
          (((0 : Nat), (1 : Nat)), [2])]
          [((0 : Nat), (0 : Nat)), ((0 : Nat), (1 : Nat))] (0, 0)).Perm
        (dget [(((0 : Nat), (0 : Nat)), [1, 2]),
          (((0 : Nat), (1 : Nat)), [2])] (0, 0)) :=
  ⟨by decide,
    (claim_C9_sorted_values
      [(((0 : Nat), (0 : Nat)), [1, 2]), (((0 : Nat), (1 : Nat)), [2])]
      [((0 : Nat), (0 : Nat)), ((0 : Nat), (1 : Nat))] (0, 0) (by decide)).1⟩

/-! ### Well-formedness and conflict-freedom step lemmas -/

theorem mem_allPos {p : Pos} : p ∈ allPos ↔ inB p := by
  cases p with
  | mk r c =>
    simp only [allPos, List.mem_flatMap, List.mem_map, List.mem_range, inB]
    constructor
    · rintro ⟨r1, hr1, c1, hc1, heq⟩
      simp only [Prod.mk.injEq] at heq
      omega
    · rintro ⟨hr, hc⟩
      exact ⟨r, hr, c, hc, rfl⟩

theorem row_len {b : Board} (hWF : BoardWF b) {r : Nat} (hr : r < 9) :
    (b.getD r []).length = 9 := by
  have hlt : r < b.length := by rw [hWF.1]; exact hr
  have hmem : b.getD r [] ∈ b := by
    rw [List.getD_eq_getElem?_getD, List.getElem?_eq_getElem hlt]
    exact List.getElem_mem hlt
  exact (hWF.2 _ hmem).1

theorem bget_bset_inB {b : Board} {p : Pos} {v : Nat} (hWF : BoardWF b)
    (hp : inB p) : bget (bset b p v) p = v :=
  bget_bset_same (by rw [hWF.1]; exact hp.1)
    (by rw [row_len hWF hp.1]; exact hp.2)

theorem BoardWF_bset {b : Board} {p : Pos} {v : Nat} (hWF : BoardWF b)
    (hv : v ≤ 9) : BoardWF (bset b p v) := by
  by_cases hp1 : p.1 < b.length
  · refine ⟨by rw [length_bset, hWF.1], fun row hrow => ?_⟩
    rcases List.mem_or_eq_of_mem_set hrow with h | h
    · exact hWF.2 row h
    · subst h
      have hmem : b.getD p.1 [] ∈ b := by
        rw [List.getD_eq_getElem?_getD, List.getElem?_eq_getElem hp1]
        exact List.getElem_mem hp1
      obtain ⟨hlen, hval⟩ := hWF.2 _ hmem
      refine ⟨by rw [List.length_set]; exact hlen, fun x hx => ?_⟩
      rcases List.mem_or_eq_of_mem_set hx with h | h
      · exact hval x h
      · exact h ▸ hv
  · unfold bset
    rw [List.set_eq_of_length_le (Nat.le_of_not_lt hp1)]
    exact hWF

theorem sameUnit_symm {p q : Pos} (h : sameUnit p q) : sameUnit q p := by
  rcases h with h | h | ⟨h1, h2⟩
  · exact Or.inl h.symm
  · exact Or.inr (Or.inl h.symm)
  · exact Or.inr (Or.inr ⟨h1.symm, h2.symm⟩)

theorem conflictFree_bset_of_valid {b : Board} {p : Pos} {v : Nat}
    (hWF : BoardWF b) (hp : inB p) (hCF : conflictFree b)
    (hvalid : (is_valid_value b p v).1 = true) : conflictFree (bset b p v) := by
  have hscan := (valid_true_iff hWF hp).1 hvalid
  intro x hx y hy hne hsu hnz
  have hxB := mem_allPos.1 hx
  have hyB := mem_allPos.1 hy
  by_cases hxp : x = p
  · subst hxp
    have hyp : y ≠ x := fun h => hne h.symm
    rw [bget_bset_inB hWF hxB] at hnz ⊢
    rw [bget_bset_ne hyp]
    exact fun h => hscan y hyB hsu h.symm
  · rw [bget_bset_ne hxp] at hnz ⊢
    by_cases hyp : y = p
    · subst hyp
      rw [bget_bset_inB hWF hyB]
      exact fun h => hscan x hxB (sameUnit_symm hsu) h
    · rw [bget_bset_ne hyp]
      exact hCF x hx y hy hne hsu hnz

theorem conflictFree_bset_zero {b : Board} {p : Pos} (hWF : BoardWF b)
    (hp : inB p) (hCF : conflictFree b) : conflictFree (bset b p 0) := by
  intro x hx y hy hne hsu hnz
  by_cases hxp : x = p
  · subst hxp
    rw [bget_bset_inB hWF hp] at hnz
    exact absurd rfl hnz
  · rw [bget_bset_ne hxp] at hnz ⊢
    by_cases hyp : y = p
    · subst hyp
      rw [bget_bset_inB hWF hp]
      exact hnz
    · rw [bget_bset_ne hyp]
      exact hCF x hx y hy hne hsu hnz

theorem getD_mem {l : List Nat} {n : Nat} {d : Nat} (h : n < l.length) :
    l.getD n d ∈ l := by
  rw [List.getD_eq_getElem?_getD, List.getElem?_eq_getElem h]
  exact List.getElem_mem h

theorem bget_ne_zero_of_not_contains0 {b : Board} {p : Pos}
    (hWF : BoardWF b) (h : contains0 b = false) (hp : inB p) :
    bget b p ≠ 0 := by
  intro h0
  have hlt : p.1 < b.length := by rw [hWF.1]; exact hp.1
  have hrowmem : b.getD p.1 [] ∈ b := by
    rw [List.getD_eq_getElem?_getD, List.getElem?_eq_getElem hlt]
    exact List.getElem_mem hlt
  have hp2 : p.2 < (b.getD p.1 []).length := by
    rw [row_len hWF hp.1]; exact hp.2
  have hvalmem : bget b p ∈ b.getD p.1 [] := by
    rw [bget_def]
    exact getD_mem hp2
  simp only [contains0, List.any_eq_false] at h
  exact h _ hrowmem (List.elem_eq_true_of_mem (h0 ▸ hvalmem))

/-! ### Domain well-formedness lemmas -/

theorem dget_forall {P : List Nat → Prop} (hnil : P []) :
    ∀ {d : DomainsT}, (∀ e ∈ d, P e.2) → ∀ q : Pos, P (dget d q) := by
  intro d
  induction d with
  | nil => intro _ q; exact hnil
  | cons e t ih =>
    intro hP q
    obtain ⟨k, xs⟩ := e
    rw [dget_cons]
    by_cases h : k = q
    · rw [if_pos h]
      exact hP (k, xs) (List.mem_cons_self _ _)
    · rw [if_neg h]
      exact ih (fun e2 he => hP e2 (List.mem_cons_of_mem _ he)) q

theorem DWF_get_domains (b : Board) : DWF (get_domains b) := by
  intro p
  refine dget_forall (P := fun xs => ∀ w ∈ xs, 1 ≤ w ∧ w ≤ 9) ?_ ?_ p
  · intro w hw
    cases hw
  · intro e he w hw
    simp only [get_domains, List.mem_map] at he
    obtain ⟨q, _, hq⟩ := he
    rw [← hq] at hw
    simp only [List.mem_range'_1] at hw
    omega

theorem DWF_forward_checking {d : DomainsT} (hd : DWF d) (u : List Pos)
    (p : Pos) (v : Nat) : DWF (forward_checking d u p v) := by
  intro q w hw
  exact hd q w (remove_value_subset v _ q d hw)

theorem DWF_effective {od : Option DomainsT} (h : ODWF od) (b : Board) :
    DWF (od.getD (get_domains b)) := by
  cases od with
  | none => exact DWF_get_domains b
  | some d => exact h d rfl

theorem sorted_values_subset (domains : DomainsT) (u : List Pos)
    (position : Pos) :
    ∀ v ∈ sorted_values domains u position, v ∈ dget domains position := by
  intro v hv
  simp only [sorted_values] at hv
  exact mem_firstDedupAux ((List.perm_insertionSort _ _).mem_iff.1 hv)

/-! ### Unfolding equations of the solver -/

theorem solveVals_nil (recur : Board → Option DomainsT →
      (Option Board × Bool) × Board)
    (d : DomainsT) (u : List Pos) (pos : Pos) (board : Board) :
    solveVals recur d u pos board [] = ((none, false), board) := rfl

theorem solveVals_cons (recur : Board → Option DomainsT →
      (Option Board × Bool) × Board)
    (d : DomainsT) (u : List Pos) (pos : Pos) (board : Board)
    (value : Nat) (values : List Nat) :
    solveVals recur d u pos board (value :: values) =
      if (is_valid_value board pos value).1 = false then
        solveVals recur d u pos board values
      else if u.any fun dd =>
          (dget (forward_checking d u pos value) dd).length == 0 then
        solveVals recur d u pos (bset board pos value) values
      else if (recur (bset board pos value)
          (some (forward_checking d u pos value))).1.2 = true then
        (((recur (bset board pos value)
            (some (forward_checking d u pos value))).1.1, true),
          (recur (bset board pos value)
            (some (forward_checking d u pos value))).2)
      else
        solveVals recur d u pos
          (bset (recur (bset board pos value)
            (some (forward_checking d u pos value))).2 pos 0) values := rfl

theorem solveF_zero (board : Board) (od : Option DomainsT) :
    solveF 0 board od =
      if contains0 board = false then ((some board, true), board)
      else ((none, false), board) := rfl

theorem solveF_succ (n : Nat) (board : Board) (od : Option DomainsT) :
    solveF (n + 1) board od =
      if contains0 board = false then ((some board, true), board)
      else
        match List.insertionSort
            (fun a b => (dget (od.getD (get_domains board)) a).length ≤
              (dget (od.getD (get_domains board)) b).length)
            (argwhere0 board) with
        | [] => ((none, false), board)
        | position :: _ =>
          solveVals (fun b2 od2 => solveF n b2 od2)
            (od.getD (get_domains board)) (argwhere0 board) position board
            (sorted_values (od.getD (get_domains board)) (argwhere0 board)
              position) := rfl

/-! ### Unconditional postcondition: the final board only extends the
entry board's non-zero cells -/

theorem solveVals_U
    (recur : Board → Option DomainsT → (Option Board × Bool) × Board)
    (domains : DomainsT) (u : List Pos) (position : Pos) (B0 : Board)
    (hrec : ∀ b od, SolveOutU b (recur b od))
    (hpos0 : bget B0 position = 0) :
    ∀ (values : List Nat) (board : Board), agrees B0 board →
      sameShape B0 board →
      SolveOutU B0 (solveVals recur domains u position board values) := by
  intro values
  induction values with
  | nil =>
    intro board hag hsh
    rw [solveVals_nil]
    exact ⟨hag, hsh, fun hh => by simp at hh, fun _ => rfl⟩
  | cons value values ih =>
    intro board hag hsh
    rw [solveVals_cons]
    by_cases h1 : (is_valid_value board position value).1 = false
    · rw [if_pos h1]
      exact ih board hag hsh
    · rw [if_neg h1]
      have hag1 : agrees B0 (bset board position value) := by
        intro q hq
        by_cases hqp : q = position
        · subst hqp
          exact absurd hpos0 hq
        · rw [bget_bset_ne hqp]
          exact hag q hq
      have hsh1 : sameShape B0 (bset board position value) :=
        sameShape_trans hsh (sameShape_bset _ _)
      by_cases h2 : (u.any fun dd =>
          (dget (forward_checking domains u position value) dd).length == 0) = true
      · rw [if_pos h2]
        exact ih _ hag1 hsh1
      · rw [if_neg h2]
        obtain ⟨hagr, hshr, hsucc, hfail⟩ :=
          hrec (bset board position value)
            (some (forward_checking domains u position value))
        by_cases h3 : (recur (bset board position value)
            (some (forward_checking domains u position value))).1.2 = true
        · rw [if_pos h3]
          exact ⟨agrees_trans hag1 hagr, sameShape_trans hsh1 hshr,
            fun _ => hsucc h3, fun hh => by simp at hh⟩
        · rw [if_neg h3]
          apply ih
          · intro q hq
            by_cases hqp : q = position
            · subst hqp
              exact absurd hpos0 hq
            · rw [bget_bset_ne hqp]
              exact agrees_trans hag1 hagr q hq
          · exact sameShape_trans (sameShape_trans hsh1 hshr)
              (sameShape_bset _ _)

theorem solveF_U :
    ∀ (fuel : Nat) (b : Board) (od : Option DomainsT),
      SolveOutU b (solveF fuel b od) := by
  intro fuel
  induction fuel with
  | zero =>
    intro b od
    rw [solveF_zero]
    by_cases h : contains0 b = false
    · rw [if_pos h]
      exact ⟨agrees_refl b, sameShape_refl b, fun _ => ⟨rfl, h⟩,
        fun hh => by simp at hh⟩
    · rw [if_neg h]
      exact ⟨agrees_refl b, sameShape_refl b, fun hh => by simp at hh,
        fun _ => rfl⟩
  | succ n ih =>
    intro b od
    rw [solveF_succ]
    by_cases h : contains0 b = false
    · rw [if_pos h]
      exact ⟨agrees_refl b, sameShape_refl b, fun _ => ⟨rfl, h⟩,
        fun hh => by simp at hh⟩
    · rw [if_neg h]
      cases hus : List.insertionSort
          (fun a c => (dget (od.getD (get_domains b)) a).length ≤
            (dget (od.getD (get_domains b)) c).length)
          (argwhere0 b) with
      | nil =>
        exact ⟨agrees_refl b, sameShape_refl b, fun hh => by simp at hh,
          fun _ => rfl⟩
      | cons position rest =>
        have hmem : position ∈ argwhere0 b := by
          have : position ∈ List.insertionSort
              (fun a c => (dget (od.getD (get_domains b)) a).length ≤
                (dget (od.getD (get_domains b)) c).length)
              (argwhere0 b) := by
            rw [hus]
            exact List.mem_cons_self _ _
          exact (List.perm_insertionSort _ _).mem_iff.1 this
        have hpos0 : bget b position = 0 := (mem_argwhere0.1 hmem).2.2
        exact solveVals_U _ _ _ _ b (fun b2 od2 => ih b2 od2) hpos0 _ b
          (agrees_refl b) (sameShape_refl b)

/-! ### Conditional postcondition: conflict-freedom is an invariant -/

theorem ODWF_none : ODWF none := fun _ h => by cases h

theorem ODWF_some {d : DomainsT} (h : DWF d) : ODWF (some d) :=
  fun d2 h2 => by cases h2; exact h

theorem solveVals_M
    (recur : Board → Option DomainsT → (Option Board × Bool) × Board)
    (domains : DomainsT) (u : List Pos) (position : Pos) (B0 : Board)
    (hrec : ∀ b d, BoardWF b → conflictFree b → DWF d →
      SolveOut b (recur b (some d)))
    (hdom : DWF domains) (hposB : inB position)
    (hpos0 : bget B0 position = 0) :
    ∀ (values : List Nat) (board : Board),
      (∀ v ∈ values, 1 ≤ v ∧ v ≤ 9) →
      BoardWF board → conflictFree board → agrees B0 board →
      sameShape B0 board →
      SolveOut B0 (solveVals recur domains u position board values) := by
  intro values
  induction values with
  | nil =>
    intro board _ hWF hCF hag hsh
    rw [solveVals_nil]
    exact ⟨hWF, hCF, hag, hsh, fun hh => by simp at hh, fun _ => rfl⟩
  | cons value values ih =>
    intro board hvals hWF hCF hag hsh
    have hv : 1 ≤ value ∧ value ≤ 9 :=
      hvals value (List.mem_cons_self _ _)
    have hvals2 : ∀ v ∈ values, 1 ≤ v ∧ v ≤ 9 :=
      fun v hv2 => hvals v (List.mem_cons_of_mem _ hv2)
    rw [solveVals_cons]
    by_cases h1 : (is_valid_value board position value).1 = false
    · rw [if_pos h1]
      exact ih board hvals2 hWF hCF hag hsh
    · rw [if_neg h1]
      have hvalid : (is_valid_value board position value).1 = true := by
        rwa [Bool.not_eq_false] at h1
      have hWF1 : BoardWF (bset board position value) :=
        BoardWF_bset hWF hv.2
      have hCF1 : conflictFree (bset board position value) :=
        conflictFree_bset_of_valid hWF hposB hCF hvalid
      have hag1 : agrees B0 (bset board position value) := by
        intro q hq
        by_cases hqp : q = position
        · subst hqp
          exact absurd hpos0 hq
        · rw [bget_bset_ne hqp]
          exact hag q hq
      have hsh1 : sameShape B0 (bset board position value) :=
        sameShape_trans hsh (sameShape_bset _ _)
      by_cases h2 : (u.any fun dd =>
          (dget (forward_checking domains u position value) dd).length
            == 0) = true
      · rw [if_pos h2]
        exact ih _ hvals2 hWF1 hCF1 hag1 hsh1
      · rw [if_neg h2]
        obtain ⟨hWFr, hCFr, hagr, hshr, hsucc, hfail⟩ :=
          hrec (bset board position value)
            (forward_checking domains u position value) hWF1 hCF1
            (DWF_forward_checking hdom u position value)
        by_cases h3 : (recur (bset board position value)
            (some (forward_checking domains u position value))).1.2 = true
        · rw [if_pos h3]
          exact ⟨hWFr, hCFr, agrees_trans hag1 hagr,
            sameShape_trans hsh1 hshr, fun _ => hsucc h3,
            fun hh => by simp at hh⟩
        · rw [if_neg h3]
          apply ih _ hvals2
          · exact BoardWF_bset hWFr (by omega)
          · exact conflictFree_bset_zero hWFr hposB hCFr
          · intro q hq
            by_cases hqp : q = position
            · subst hqp
              exact absurd hpos0 hq
            · rw [bget_bset_ne hqp]
              exact agrees_trans hag1 hagr q hq
          · exact sameShape_trans (sameShape_trans hsh1 hshr)
              (sameShape_bset _ _)

theorem solveF_M :
    ∀ (fuel : Nat) (b : Board) (od : Option DomainsT),
      BoardWF b → conflictFree b → ODWF od →
      SolveOut b (solveF fuel b od) := by
  intro fuel
  induction fuel with
  | zero =>
    intro b od hWF hCF _
    rw [solveF_zero]
    by_cases h : contains0 b = false
    · rw [if_pos h]
      exact ⟨hWF, hCF, agrees_refl b, sameShape_refl b, fun _ => ⟨rfl, h⟩,
        fun hh => by simp at hh⟩
    · rw [if_neg h]
      exact ⟨hWF, hCF, agrees_refl b, sameShape_refl b,
        fun hh => by simp at hh, fun _ => rfl⟩
  | succ n ih =>
    intro b od hWF hCF hod
    rw [solveF_succ]
    by_cases h : contains0 b = false
    · rw [if_pos h]
      exact ⟨hWF, hCF, agrees_refl b, sameShape_refl b, fun _ => ⟨rfl, h⟩,
        fun hh => by simp at hh⟩
    · rw [if_neg h]
      cases hus : List.insertionSort
          (fun a c => (dget (od.getD (get_domains b)) a).length ≤
            (dget (od.getD (get_domains b)) c).length)
          (argwhere0 b) with
      | nil =>
        exact ⟨hWF, hCF, agrees_refl b, sameShape_refl b,
          fun hh => by simp at hh, fun _ => rfl⟩
      | cons position rest =>
        have hmem : position ∈ argwhere0 b := by
          have hm2 : position ∈ List.insertionSort
              (fun a c => (dget (od.getD (get_domains b)) a).length ≤
                (dget (od.getD (get_domains b)) c).length)
              (argwhere0 b) := by
            rw [hus]
            exact List.mem_cons_self _ _
          exact (List.perm_insertionSort _ _).mem_iff.1 hm2
        obtain ⟨hm1, hm2, hm0⟩ := mem_argwhere0.1 hmem
        have hposB : inB position := by
          constructor
          · rw [← hWF.1]
            exact hm1
          · have := row_len hWF (hWF.1 ▸ hm1)
            rw [← this]
            exact hm2
        have hdom : DWF (od.getD (get_domains b)) := DWF_effective hod b
        refine solveVals_M _ _ _ _ b
          (fun b2 d2 hw hc hd => ih b2 (some d2) hw hc (ODWF_some hd))
          hdom hposB hm0 _ b ?_ hWF hCF (agrees_refl b) (sameShape_refl b)
        intro v hv
        exact hdom position v (sorted_values_subset _ _ _ v hv)

/-! ### A zero-free conflict-free well-formed board is a valid grid -/

theorem bget_le_nine {b : Board} (hWF : BoardWF b) {p : Pos} (hp : inB p) :
    bget b p ≤ 9 := by
  have hlt : p.1 < b.length := by rw [hWF.1]; exact hp.1
  have hrowmem : b.getD p.1 [] ∈ b := by
    rw [List.getD_eq_getElem?_getD, List.getElem?_eq_getElem hlt]
    exact List.getElem_mem hlt
  have hp2 : p.2 < (b.getD p.1 []).length := by
    rw [row_len hWF hp.1]
    exact hp.2
  have hvalmem : bget b p ∈ b.getD p.1 [] := by
    rw [bget_def]
    exact getD_mem hp2
  exact (hWF.2 _ hrowmem).2 _ hvalmem

theorem validUnit_of_cells {sb : Board} (hWF : BoardWF sb)
    (hCF : conflictFree sb) (hnz : contains0 sb = false) {cells : List Pos}
    (hlen : cells.length = 9) (hin : ∀ p ∈ cells, inB p)
    (hpair : cells.Pairwise fun p q => p ≠ q ∧ sameUnit p q) :
    validUnit (cells.map fun p => bget sb p) := by
  have hnd : (cells.map fun p => bget sb p).Nodup := by
    refine List.pairwise_map.2 (List.Pairwise.imp_of_mem ?_ hpair)
    intro a c ha hc hr
    exact hCF a (mem_allPos.2 (hin a ha)) c (mem_allPos.2 (hin c hc)) hr.1
      hr.2 (bget_ne_zero_of_not_contains0 hWF hnz (hin a ha))
  have hsub : (cells.map fun p => bget sb p) ⊆ List.range' 1 9 := by
    intro x hx
    obtain ⟨p, hp, rfl⟩ := List.mem_map.1 hx
    have h1 := bget_ne_zero_of_not_contains0 hWF hnz (hin p hp)
    have h2 := bget_le_nine hWF (hin p hp)
    rw [List.mem_range'_1]
    omega
  have hperm : (cells.map fun p => bget sb p).Perm (List.range' 1 9) := by
    refine (List.Nodup.subperm hnd hsub).perm_of_length_le ?_
    simp [hlen]
  intro d hd
  rw [hperm.count_eq]
  exact List.count_eq_one_of_mem (List.nodup_range' 1 9) hd

theorem rowCells_spec {i : Nat} (hi : i < 9) :
    (rowCells i).length = 9 ∧ (∀ p ∈ rowCells i, inB p) ∧
      (rowCells i).Pairwise fun p q => p ≠ q ∧ sameUnit p q := by
  refine ⟨by simp [rowCells], ?_, ?_⟩
  · intro p hp
    simp only [rowCells, List.mem_map, List.mem_range] at hp
    obtain ⟨c, hc, rfl⟩ := hp
    exact ⟨hi, hc⟩
  · rw [rowCells, List.pairwise_map]
    refine (List.nodup_range 9).imp ?_
    intro a c hne
    exact ⟨fun h => hne (by simpa using congrArg Prod.snd h), Or.inl rfl⟩

theorem colCells_spec {j : Nat} (hj : j < 9) :
    (colCells j).length = 9 ∧ (∀ p ∈ colCells j, inB p) ∧
      (colCells j).Pairwise fun p q => p ≠ q ∧ sameUnit p q := by
  refine ⟨by simp [colCells], ?_, ?_⟩
  · intro p hp
    simp only [colCells, List.mem_map, List.mem_range] at hp
    obtain ⟨r, hr, rfl⟩ := hp
    exact ⟨hr, hj⟩
  · rw [colCells, List.pairwise_map]
    refine (List.nodup_range 9).imp ?_
    intro a c hne
    exact ⟨fun h => hne (by simpa using congrArg Prod.fst h),
      Or.inr (Or.inl rfl)⟩

theorem boxCells_spec {k : Nat} (hk : k < 9) :
    (boxCells k).length = 9 ∧ (∀ p ∈ boxCells k, inB p) ∧
      (boxCells k).Pairwise fun p q => p ≠ q ∧ sameUnit p q := by
  refine ⟨rfl, ?_, ?_⟩
  · intro p hp
    simp only [boxCells, List.mem_flatMap, List.mem_map, List.mem_range] at hp
    obtain ⟨a, ha, c, hc, rfl⟩ := hp
    constructor
    · simp only []
      omega
    · simp only []
      omega
  · rw [boxCells, List.pairwise_flatMap]
    constructor
    · intro a _
      rw [List.pairwise_map]
      refine (List.nodup_range 3).imp ?_
      intro c1 c2 hne
      refine ⟨fun h => hne (by simpa using congrArg Prod.snd h), Or.inl rfl⟩
    · refine List.Pairwise.imp_of_mem ?_ (List.nodup_range 3)
      intro a1 a2 ha1 ha2 hne x hx y hy
      rw [List.mem_range] at ha1 ha2
      simp only [List.mem_map, List.mem_range] at hx hy
      obtain ⟨c1, hc1, rfl⟩ := hx
      obtain ⟨c2, hc2, rfl⟩ := hy
      constructor
      · intro h
        simp only [Prod.mk.injEq] at h
        omega
      · refine Or.inr (Or.inr ⟨?_, ?_⟩) <;> simp only [] <;> omega

theorem validGrid_of {sb : Board} (hWF : BoardWF sb)
    (hCF : conflictFree sb) (hnz : contains0 sb = false) :
    validGrid sb := by
  intro i hi
  rw [List.mem_range] at hi
  obtain ⟨hl1, hin1, hp1⟩ := rowCells_spec hi
  obtain ⟨hl2, hin2, hp2⟩ := colCells_spec hi
  obtain ⟨hl3, hin3, hp3⟩ := boxCells_spec hi
  exact ⟨validUnit_of_cells hWF hCF hnz hl1 hin1 hp1,
    validUnit_of_cells hWF hCF hnz hl2 hin2 hp2,
    validUnit_of_cells hWF hCF hnz hl3 hin3 hp3⟩

theorem solve_def (b : Board) (od : Option DomainsT) :
    solve b od = solveF (countZeros b) b od := rfl

/-! ## Claim C2 -/

/-- C2 (corrected): for a 9×9 input board with digits 0-9 whose non-zero
cells are conflict-free, if `solve` returns a board with the success
flag, that board is a fully valid grid — every row, column and 3×3 block
contains each digit 1-9 exactly once.  The original claim quantified over
EVERY input board; it fails for an already-full invalid board, which
`solve` returns unchanged with success (see `claim_C2_counterexample`). -/
theorem claim_C2_solve_valid {b : Board} (hWF : BoardWF b)
    (hCF : conflictFree b) (sb : Board)
    (hret : (solve b none).1.1 = some sb)
    (hflag : (solve b none).1.2 = true) : validGrid sb := by
  rw [solve_def] at hret hflag
  obtain ⟨hWFr, hCFr, _, _, hsucc, _⟩ :=
    solveF_M (countZeros b) b none hWF hCF ODWF_none
  obtain ⟨hsome, hnz⟩ := hsucc hflag
  rw [hret] at hsome
  obtain rfl : sb = (solveF (countZeros b) b none).2 := by
    injection hsome
  exact validGrid_of hWFr hCFr hnz

/-- C2 counterexample: the all-twos board has no zero cell, so `solve`
returns it unchanged with the success flag, yet it is not a valid grid —
the claim is false for arbitrary input boards. -/
theorem claim_C2_counterexample :
    (solve board_allTwos none).1.1 = some board_allTwos ∧
      (solve board_allTwos none).1.2 = true ∧
      ¬ validGrid board_allTwos := by
  refine ⟨rfl, rfl, ?_⟩
  intro h
  have := (h 0 (by decide)).1 1 (by decide)
  exact absurd this (by decide)

/-- C2 witness: solving the one-hole puzzle returns `pre_solved`, a valid
grid. -/
theorem claim_C2_witness :
    BoardWF board_oneHole ∧ conflictFree board_oneHole ∧
      (solve board_oneHole none).1.1 = some pre_solved ∧
      (solve board_oneHole none).1.2 = true ∧ validGrid pre_solved := by
  have h1 : BoardWF board_oneHole := by decide
  have h2 : conflictFree board_oneHole := by decide
  have h3 : (solve board_oneHole none).1.1 = some pre_solved := by decide
  have h4 : (solve board_oneHole none).1.2 = true := by decide
  exact ⟨h1, h2, h3, h4, claim_C2_solve_valid h1 h2 pre_solved h3 h4⟩

/-! ## Claim C7 -/

/-- C7 (confirmed): conflict-freedom of the non-zero cells is an
invariant of the search.  Every board arising during `solve` is reached
from the entry board by the two mutation steps of the source — a
tentative assignment guarded by `is_valid_value` (line 61-64) and an undo
write of 0 (line 71) — and both preserve conflict-freedom; consequently
the board state left by any `solve` call on a conflict-free well-formed
board (in particular the board at entry of every recursive invocation,
which is such a state) is conflict-free. -/
theorem claim_C7_conflictFree_invariant {b : Board} (hWF : BoardWF b)
    (hCF : conflictFree b) :
    (∀ p v, inB p → (is_valid_value b p v).1 = true →
      conflictFree (bset b p v)) ∧
      (∀ p, inB p → conflictFree (bset b p 0)) ∧
      (∀ fuel od, ODWF od → conflictFree (solveF fuel b od).2) :=
  ⟨fun p v hp hvalid => conflictFree_bset_of_valid hWF hp hCF hvalid,
    fun p hp => conflictFree_bset_zero hWF hp hCF,
    fun fuel od hod => (solveF_M fuel b od hWF hCF hod).2.1⟩

/-- C7 witness: the invariant applied to the one-hole puzzle. -/
theorem claim_C7_witness :
    BoardWF board_oneHole ∧ conflictFree board_oneHole ∧
      conflictFree (solveF 1 board_oneHole none).2 := by
  have h1 : BoardWF board_oneHole := by decide
  have h2 : conflictFree board_oneHole := by decide
  exact ⟨h1, h2,
    (claim_C7_conflictFree_invariant h1 h2).2.2 1 none ODWF_none⟩

/-! ## Claim C10 -/

/-- C10 (confirmed): whenever `solve` succeeds, the returned board agrees
with the input board on every cell that was non-zero in the input —
`solve` only ever writes to cells that were empty at the start of the
call.  This holds for arbitrary input boards and optional domain
tables. -/
theorem claim_C10_clues_preserved (b : Board) (od : Option DomainsT)
    (sb : Board) (hret : (solve b od).1.1 = some sb)
    (hflag : (solve b od).1.2 = true) :
    ∀ p : Pos, bget b p ≠ 0 → bget sb p = bget b p := by
  rw [solve_def] at hret hflag
  obtain ⟨hag, _, hsucc, _⟩ := solveF_U (countZeros b) b od
  obtain ⟨hsome, _⟩ := hsucc hflag
  rw [hret] at hsome
  obtain rfl : sb = (solveF (countZeros b) b od).2 := by injection hsome
  exact hag

/-- C10 witness: the solved one-hole puzzle keeps clue (1,0). -/
theorem claim_C10_witness :
    (solve board_oneHole none).1.1 = some pre_solved ∧
      (solve board_oneHole none).1.2 = true ∧
      bget pre_solved ((1 : Nat), (0 : Nat)) = bget board_oneHole (1, 0) := by
  have h3 : (solve board_oneHole none).1.1 = some pre_solved := by decide
  have h4 : (solve board_oneHole none).1.2 = true := by decide
  exact ⟨h3, h4, claim_C10_clues_preserved board_oneHole none pre_solved
    h3 h4 (1, 0) (by decide)⟩

/-! ## Claim C8 -/

/-- C8 (confirmed): on a well-formed conflict-free board that admits no
valid completion, `solve` returns the pair (no board, failure flag) — the
total embedding returns normally, and every failing path of the source
returns exactly `(None, False)`. -/
theorem claim_C8_unsolvable {b : Board} (hWF : BoardWF b)
    (hCF : conflictFree b)
    (hunsat : ¬ ∃ g : Board, validGrid g ∧ agrees b g) :
    (solve b none).1.1 = none ∧ (solve b none).1.2 = false := by
  rw [solve_def]
  obtain ⟨hWFr, hCFr, hag, _, hsucc, hfail⟩ :=
    solveF_M (countZeros b) b none hWF hCF ODWF_none
  by_cases hflag : (solveF (countZeros b) b none).1.2 = true
  · exfalso
    obtain ⟨_, hnz⟩ := hsucc hflag
    exact hunsat ⟨_, validGrid_of hWFr hCFr hnz, hag⟩
  · have hf : (solveF (countZeros b) b none).1.2 = false := by
      rwa [Bool.not_eq_true] at hflag
    exact ⟨hfail hf, hf⟩

/-- The board `board_unsolvable` has no valid completion: any valid grid
extending its clues must place 9 at (0,8) to complete row 0, but column 8
already holds a 9 at (1,8). -/
theorem board_unsolvable_has_no_completion :
    ¬ ∃ g : Board, validGrid g ∧ agrees board_unsolvable g := by
  rintro ⟨g, hg, hag⟩
  have h00 : bget g (0, 0) = 1 := by rw [hag (0, 0) (by decide)]; rfl
  have h01 : bget g (0, 1) = 2 := by rw [hag (0, 1) (by decide)]; rfl
  have h02 : bget g (0, 2) = 3 := by rw [hag (0, 2) (by decide)]; rfl
  have h03 : bget g (0, 3) = 4 := by rw [hag (0, 3) (by decide)]; rfl
  have h04 : bget g (0, 4) = 5 := by rw [hag (0, 4) (by decide)]; rfl
  have h05 : bget g (0, 5) = 6 := by rw [hag (0, 5) (by decide)]; rfl
  have h06 : bget g (0, 6) = 7 := by rw [hag (0, 6) (by decide)]; rfl
  have h07 : bget g (0, 7) = 8 := by rw [hag (0, 7) (by decide)]; rfl
  have h18 : bget g (1, 8) = 9 := by rw [hag (1, 8) (by decide)]; rfl
  have hrow : rowList g 0 = [bget g (0, 0), bget g (0, 1), bget g (0, 2),
      bget g (0, 3), bget g (0, 4), bget g (0, 5), bget g (0, 6),
      bget g (0, 7), bget g (0, 8)] := rfl
  have hcount := (hg 0 (by decide)).1 9 (by decide)
  rw [hrow, h00, h01, h02, h03, h04, h05, h06, h07] at hcount
  have h08 : bget g (0, 8) = 9 := by
    by_contra hne
    have hne2 : ¬ ((9 : Nat) = bget g (0, 8)) := fun hh => hne hh.symm
    simp [List.count_cons, hne2] at hcount
  have hcol : colList g 8 = [bget g (0, 8), bget g (1, 8), bget g (2, 8),
      bget g (3, 8), bget g (4, 8), bget g (5, 8), bget g (6, 8),
      bget g (7, 8), bget g (8, 8)] := rfl
  have hcount2 := (hg 8 (by decide)).2.1 9 (by decide)
  rw [hcol, h08, h18] at hcount2
  simp [List.count_cons] at hcount2

/-- C8 witness: the concrete unsolvable board yields `(none, false)`. -/
theorem claim_C8_witness :
    BoardWF board_unsolvable ∧ conflictFree board_unsolvable ∧
      (solve board_unsolvable none).1.1 = none ∧
      (solve board_unsolvable none).1.2 = false := by
  have h1 : BoardWF board_unsolvable := by decide
  have h2 : conflictFree board_unsolvable := by decide
  obtain ⟨h3, h4⟩ :=
    claim_C8_unsolvable h1 h2 board_unsolvable_has_no_completion
  exact ⟨h1, h2, h3, h4⟩

/-! ### Counting the empty cells: fuel adequacy of `solve` -/

theorem filterMap_if {α β : Type} (l : List α) (P : α → Prop)
    [DecidablePred P] (f : α → β) :
    (l.filterMap fun a => if P a then some (f a) else none) =
      ((l.filter fun a => decide (P a)).map f) := by
  induction l with
  | nil => rfl
  | cons a t ih =>
    by_cases h : P a
    · simp only [List.filterMap_cons, List.filter_cons, if_pos h,
        decide_eq_true h, if_true, List.map_cons, ih]
    · simp only [List.filterMap_cons, List.filter_cons, if_neg h, ih]
      rw [decide_eq_false h]
      simp

theorem filter_flatMap {α β : Type} (l : List α) (f : α → List β)
    (p : β → Bool) :
    (l.flatMap f).filter p = l.flatMap fun a => (f a).filter p := by
  induction l with
  | nil => rfl
  | cons a t ih => simp [List.flatMap_cons, List.filter_append, ih]

theorem argwhere0_eq_filter (b : Board) :
    argwhere0 b = (allIdx b).filter fun p => decide (bget b p = 0) := by
  unfold argwhere0 allIdx
  rw [filter_flatMap]
  refine List.flatMap_congr ?_
  intro r _
  rw [filterMap_if (List.range ((b.getD r []).length))
    (fun c => (b.getD r []).getD c 0 = 0) (fun c => ((r, c) : Pos)),
    List.filter_map]
  congr 1

theorem countZeros_eq_countP (b : Board) :
    countZeros b = (allIdx b).countP fun p => decide (bget b p = 0) := by
  unfold countZeros
  rw [argwhere0_eq_filter, ← List.countP_eq_length_filter]

theorem mem_allIdx {b : Board} {p : Pos} :
    p ∈ allIdx b ↔ p.1 < b.length ∧ p.2 < (b.getD p.1 []).length := by
  cases p with
  | mk r c =>
    simp only [allIdx, List.mem_flatMap, List.mem_map, List.mem_range]
    constructor
    · rintro ⟨r1, hr1, c1, hc1, heq⟩
      simp only [Prod.mk.injEq] at heq
      obtain ⟨he1, he2⟩ := heq
      subst he1; subst he2
      exact ⟨hr1, hc1⟩
    · rintro ⟨hr, hc⟩
      exact ⟨r, hr, c, hc, rfl⟩

theorem allIdx_nodup (b : Board) : (allIdx b).Nodup := by
  rw [allIdx, List.nodup_flatMap]
  constructor
  · intro r _
    refine (List.nodup_range _).map ?_
    intro a c h
    simpa using h
  · refine List.Pairwise.imp_of_mem ?_ (List.nodup_range _)
    intro r1 r2 _ _ hne s hs1 hs2
    simp only [List.mem_map, List.mem_range] at hs1 hs2
    obtain ⟨c1, _, hc1⟩ := hs1
    obtain ⟨c2, _, hc2⟩ := hs2
    rw [← hc1] at hc2
    simp only [Prod.mk.injEq] at hc2
    exact hne hc2.1.symm

theorem allIdx_congr {b b2 : Board} (h : sameShape b b2) :
    allIdx b2 = allIdx b := by
  unfold allIdx
  rw [h.1]
  refine List.flatMap_congr ?_
  intro r _
  rw [h.2 r]

theorem countP_update_point {l : List Pos} (hnd : l.Nodup) {p : Pos}
    (hp : p ∈ l) (f g : Pos → Bool)
    (hagree : ∀ q ∈ l, q ≠ p → f q = g q) :
    l.countP f + (if g p then 1 else 0) =
      l.countP g + (if f p then 1 else 0) := by
  induction l with
  | nil => cases hp
  | cons a t ih =>
    rw [List.countP_cons, List.countP_cons]
    rcases List.mem_cons.1 hp with rfl | hpt
    · have hnotin : p ∉ t := (List.nodup_cons.1 hnd).1
      have ht : t.countP f = t.countP g := by
        refine List.countP_congr ?_
        intro x hx
        rw [hagree x (List.mem_cons_of_mem _ hx)
          (fun he => hnotin (he ▸ hx))]
      rw [ht]
      omega
    · have hne : a ≠ p := fun he => (List.nodup_cons.1 hnd).1 (he ▸ hpt)
      have hfa : f a = g a := hagree a (List.mem_cons_self _ _) hne
      have := ih (List.nodup_cons.1 hnd).2 hpt
        (fun q hq hqp => hagree q (List.mem_cons_of_mem _ hq) hqp)
      rw [hfa]
      omega

theorem countZeros_bset_fill {b : Board} {p : Pos} {v : Nat}
    (h1 : p.1 < b.length) (h2 : p.2 < (b.getD p.1 []).length)
    (h0 : bget b p = 0) (hv : v ≠ 0) :
    countZeros (bset b p v) + 1 = countZeros b := by
  rw [countZeros_eq_countP, countZeros_eq_countP,
    allIdx_congr (sameShape_bset p v)]
  have hupd := countP_update_point (allIdx_nodup b) (mem_allIdx.2 ⟨h1, h2⟩)
    (fun q => decide (bget (bset b p v) q = 0))
    (fun q => decide (bget b q = 0))
    (fun q _ hq => by
      show decide (bget (bset b p v) q = 0) = decide (bget b q = 0)
      rw [bget_bset_ne hq])
  beta_reduce at hupd
  rw [decide_eq_true h0] at hupd
  have hf : decide (bget (bset b p v) p = 0) = false := by
    rw [bget_bset_same h1 h2]
    exact decide_eq_false hv
  rw [hf] at hupd
  simpa using hupd

theorem countZeros_bset_zero {b : Board} {p : Pos}
    (h1 : p.1 < b.length) (h2 : p.2 < (b.getD p.1 []).length)
    (h0 : bget b p ≠ 0) :
    countZeros (bset b p 0) = countZeros b + 1 := by
  rw [countZeros_eq_countP, countZeros_eq_countP,
    allIdx_congr (sameShape_bset p 0)]
  have hupd := countP_update_point (allIdx_nodup b) (mem_allIdx.2 ⟨h1, h2⟩)
    (fun q => decide (bget (bset b p 0) q = 0))
    (fun q => decide (bget b q = 0))
    (fun q _ hq => by
      show decide (bget (bset b p 0) q = 0) = decide (bget b q = 0)
      rw [bget_bset_ne hq])
  beta_reduce at hupd
  rw [decide_eq_false h0] at hupd
  have hf : decide (bget (bset b p 0) p = 0) = true := by
    rw [bget_bset_same h1 h2]
    exact decide_eq_true rfl
  rw [hf] at hupd
  simpa using hupd

theorem countZeros_bset_keep {b : Board} {p : Pos} {v : Nat}
    (h1 : p.1 < b.length) (h2 : p.2 < (b.getD p.1 []).length)
    (h0 : bget b p ≠ 0) (hv : v ≠ 0) :
    countZeros (bset b p v) = countZeros b := by
  rw [countZeros_eq_countP, countZeros_eq_countP,
    allIdx_congr (sameShape_bset p v)]
  have hupd := countP_update_point (allIdx_nodup b) (mem_allIdx.2 ⟨h1, h2⟩)
    (fun q => decide (bget (bset b p v) q = 0))
    (fun q => decide (bget b q = 0))
    (fun q _ hq => by
      show decide (bget (bset b p v) q = 0) = decide (bget b q = 0)
      rw [bget_bset_ne hq])
  beta_reduce at hupd
  rw [decide_eq_false h0] at hupd
  have hf : decide (bget (bset b p v) p = 0) = false := by
    rw [bget_bset_same h1 h2]
    exact decide_eq_false hv
  rw [hf] at hupd
  simpa using hupd

theorem countZeros_le_of_agrees {b b2 : Board} (hag : agrees b b2)
    (hsh : sameShape b b2) : countZeros b2 ≤ countZeros b := by
  rw [countZeros_eq_countP, countZeros_eq_countP, allIdx_congr hsh]
  refine List.countP_mono_left ?_
  intro q _ hq
  by_contra hb
  have h2 : bget b q ≠ 0 := fun h0 => hb (decide_eq_true h0)
  have := hag q h2
  rw [of_decide_eq_true hq] at this
  exact h2 this.symm

theorem contains0_false_iff {b : Board} :
    contains0 b = false ↔ ∀ p ∈ allIdx b, bget b p ≠ 0 := by
  simp only [contains0, List.any_eq_false]
  constructor
  · intro h p hp h0
    obtain ⟨h1, h2⟩ := mem_allIdx.1 hp
    have hrowmem : b.getD p.1 [] ∈ b := by
      rw [List.getD_eq_getElem?_getD, List.getElem?_eq_getElem h1]
      exact List.getElem_mem h1
    have hvalmem : bget b p ∈ b.getD p.1 [] := by
      rw [bget_def]
      exact getD_mem h2
    exact h _ hrowmem (List.elem_eq_true_of_mem (h0 ▸ hvalmem))
  · intro h row hrow
    intro hc
    have h0 : (0 : Nat) ∈ row := List.mem_of_elem_eq_true hc
    obtain ⟨r, hr, hbr⟩ := List.mem_iff_getElem.1 hrow
    obtain ⟨c, hc2, hrc⟩ := List.mem_iff_getElem.1 h0
    have hrowD : b.getD r [] = row := by
      rw [List.getD_eq_getElem?_getD, List.getElem?_eq_getElem hr, hbr]
      rfl
    refine h (r, c) (mem_allIdx.2 ⟨hr, ?_⟩) ?_
    · rw [hrowD]
      exact hc2
    · show bget b (r, c) = 0
      rw [bget_def]
      simp only []
      rw [hrowD, List.getD_eq_getElem?_getD, List.getElem?_eq_getElem hc2]
      exact hrc

theorem countZeros_zero_iff {b : Board} :
    countZeros b = 0 ↔ contains0 b = false := by
  rw [countZeros_eq_countP, List.countP_eq_zero, contains0_false_iff]
  constructor <;> intro h p hp
  · intro h0
    exact h p hp (decide_eq_true h0)
  · intro hd
    exact h p hp (of_decide_eq_true hd)

/-- Loop part of the fuel-adequacy argument: with enough remaining fuel,
one more unit of fuel does not change the result of the candidate-value
loop.  The disjunctive invariant tracks the board state of the loop: the
selected cell is either still empty (no more zeros than at entry) or
tentatively assigned (strictly fewer zeros than at entry). -/
theorem solveVals_A (n : Nat)
    (IH : ∀ b od, countZeros b ≤ n → ODWF od →
      solveF (n + 1) b od = solveF n b od)
    (domains : DomainsT) (u : List Pos) (position : Pos) (B0 : Board)
    (hdom : DWF domains)
    (hb1 : position.1 < B0.length)
    (hb2 : position.2 < (B0.getD position.1 []).length)
    (hB00 : bget B0 position = 0) (hZ : countZeros B0 ≤ n + 1) :
    ∀ (values : List Nat) (board : Board),
      (∀ v ∈ values, 1 ≤ v ∧ v ≤ 9) →
      sameShape B0 board → agrees B0 board →
      ((bget board position = 0 ∧ countZeros board ≤ countZeros B0) ∨
        (bget board position ≠ 0 ∧ countZeros board < countZeros B0)) →
      solveVals (fun b2 od2 => solveF (n + 1) b2 od2) domains u position
          board values =
        solveVals (fun b2 od2 => solveF n b2 od2) domains u position
          board values := by
  intro values
  induction values with
  | nil => intro board _ _ _ _; rfl
  | cons value values ih =>
    intro board hvals hsh hag hinv
    have hval0 : value ≠ 0 := by
      have := hvals value (List.mem_cons_self _ _)
      omega
    have hvals2 : ∀ v ∈ values, 1 ≤ v ∧ v ≤ 9 :=
      fun v hv2 => hvals v (List.mem_cons_of_mem _ hv2)
    rw [solveVals_cons, solveVals_cons]
    by_cases h1 : (is_valid_value board position value).1 = false
    · rw [if_pos h1, if_pos h1]
      exact ih board hvals2 hsh hag hinv
    · rw [if_neg h1, if_neg h1]
      have hc1 : position.1 < board.length := by
        rw [hsh.1]
        exact hb1
      have hc2 : position.2 < (board.getD position.1 []).length := by
        rw [hsh.2]
        exact hb2
      have hset : bget (bset board position value) position = value :=
        bget_bset_same hc1 hc2
      have hag1 : agrees B0 (bset board position value) := by
        intro q hq
        by_cases hqp : q = position
        · subst hqp
          exact absurd hB00 hq
        · rw [bget_bset_ne hqp]
          exact hag q hq
      have hsh1 : sameShape B0 (bset board position value) :=
        sameShape_trans hsh (sameShape_bset _ _)
      have hz1 : countZeros (bset board position value) < countZeros B0 := by
        rcases hinv with ⟨hz0, hle⟩ | ⟨hnz, hlt⟩
        · have := countZeros_bset_fill hc1 hc2 hz0 hval0
          have hpos : 0 < countZeros board := by
            have : position ∈ argwhere0 board :=
              mem_argwhere0.2 ⟨hc1, hc2, hz0⟩
            unfold countZeros
            exact List.length_pos_of_mem this
          omega
        · rw [countZeros_bset_keep hc1 hc2 hnz hval0]
          exact hlt
      by_cases h2 : (u.any fun dd =>
          (dget (forward_checking domains u position value) dd).length
            == 0) = true
      · rw [if_pos h2, if_pos h2]
        refine ih _ hvals2 hsh1 hag1 (Or.inr ⟨?_, hz1⟩)
        rw [hset]
        exact hval0
      · rw [if_neg h2, if_neg h2]
        beta_reduce
        have hrec : solveF (n + 1) (bset board position value)
            (some (forward_checking domains u position value)) =
            solveF n (bset board position value)
              (some (forward_checking domains u position value)) :=
          IH _ _ (by omega)
            (ODWF_some (DWF_forward_checking hdom u position value))
        rw [hrec]
        by_cases h3 : (solveF n (bset board position value)
            (some (forward_checking domains u position value))).1.2 = true
        · rw [if_pos h3, if_pos h3]
        · rw [if_neg h3, if_neg h3]
          obtain ⟨hagr, hshr, _, _⟩ :=
            solveF_U n (bset board position value)
              (some (forward_checking domains u position value))
          have hrnz : bget (solveF n (bset board position value)
              (some (forward_checking domains u position value))).2
              position ≠ 0 := by
            rw [hagr position (by rw [hset]; exact hval0), hset]
            exact hval0
          have hshr0 : sameShape B0 (solveF n (bset board position value)
              (some (forward_checking domains u position value))).2 :=
            sameShape_trans hsh1 hshr
          have hd1 : position.1 < (solveF n (bset board position value)
              (some (forward_checking domains u position value))).2.length := by
            rw [hshr0.1]
            exact hb1
          have hd2 : position.2 < ((solveF n (bset board position value)
              (some (forward_checking domains u position value))).2.getD
                position.1 []).length := by
            rw [hshr0.2]
            exact hb2
          refine ih _ hvals2
            (sameShape_trans hshr0 (sameShape_bset _ _)) ?_ (Or.inl ⟨?_, ?_⟩)
          · intro q hq
            by_cases hqp : q = position
            · subst hqp
              exact absurd hB00 hq
            · rw [bget_bset_ne hqp]
              exact agrees_trans hag1 hagr q hq
          · exact bget_bset_same hd1 hd2
          · have hle2 := countZeros_le_of_agrees hagr hshr
            have := countZeros_bset_zero hd1 hd2 hrnz
            omega

/-- Adding one unit of fuel beyond the number of empty cells does not
change the result of `solveF`: each recursive call of the source strictly
decreases the number of zero cells of the board it receives. -/
theorem solveF_adequate :
    ∀ (n : Nat) (b : Board) (od : Option DomainsT),
      countZeros b ≤ n → ODWF od → solveF (n + 1) b od = solveF n b od := by
  intro n
  induction n with
  | zero =>
    intro b od hZ _
    have h0 : contains0 b = false := countZeros_zero_iff.1 (Nat.le_zero.1 hZ)
    rw [solveF_succ, solveF_zero, if_pos h0, if_pos h0]
  | succ n ih =>
    intro b od hZ hod
    conv_lhs => rw [solveF_succ]
    conv_rhs => rw [solveF_succ]
    by_cases h : contains0 b = false
    · rw [if_pos h, if_pos h]
    · rw [if_neg h, if_neg h]
      cases hus : List.insertionSort
          (fun a c => (dget (od.getD (get_domains b)) a).length ≤
            (dget (od.getD (get_domains b)) c).length)
          (argwhere0 b) with
      | nil => rfl
      | cons position rest =>
        have hmem : position ∈ argwhere0 b := by
          have hm2 : position ∈ List.insertionSort
              (fun a c => (dget (od.getD (get_domains b)) a).length ≤
                (dget (od.getD (get_domains b)) c).length)
              (argwhere0 b) := by
            rw [hus]
            exact List.mem_cons_self _ _
          exact (List.perm_insertionSort _ _).mem_iff.1 hm2
        obtain ⟨hm1, hm2, hm0⟩ := mem_argwhere0.1 hmem
        have hdom : DWF (od.getD (get_domains b)) := DWF_effective hod b
        refine solveVals_A n ih (od.getD (get_domains b)) (argwhere0 b)
          position b hdom hm1 hm2 hm0 hZ _ b ?_ (sameShape_refl b)
          (agrees_refl b) (Or.inl ⟨hm0, Nat.le_refl _⟩)
        intro v hv
        exact hdom position v (sorted_values_subset _ _ _ v hv)

/-- Any fuel at least the number of empty cells gives the same result as
`solve` itself. -/
theorem solveF_fuel_irrelevant {b : Board} {od : Option DomainsT}
    (hod : ODWF od) :
    ∀ k : Nat, solveF (countZeros b + k) b od = solve b od := by
  intro k
  induction k with
  | zero => rfl
  | succ k ih =>
    rw [show countZeros b + (k + 1) = (countZeros b + k) + 1 from rfl,
      solveF_adequate (countZeros b + k) b od (Nat.le_add_right _ _) hod, ih]

theorem getD_oob {l : List Nat} {n : Nat} (h : l.length ≤ n) :
    l.getD n 0 = 0 := by
  rw [List.getD_eq_getElem?_getD, List.getElem?_eq_none h]
  rfl

theorem getD_row_oob {b : Board} {n : Nat} (h : b.length ≤ n) :
    b.getD n [] = [] := by
  rw [List.getD_eq_getElem?_getD, List.getElem?_eq_none h]
  rfl

/-- For boards of at most 9 rows of at most 9 cells, `agrees` follows
from the finite check over the 81 grid positions. -/
theorem agrees_of_allPos {b0 b : Board} (hlen : b0.length ≤ 9)
    (hrows : ∀ row ∈ b0, row.length ≤ 9)
    (h : ∀ p ∈ allPos, bget b0 p ≠ 0 → bget b p = bget b0 p) :
    agrees b0 b := by
  intro p hp
  refine h p (mem_allPos.2 ?_) hp
  by_contra hni
  apply hp
  by_cases hp1 : p.1 < b0.length
  · have hrowmem : b0.getD p.1 [] ∈ b0 := by
      rw [List.getD_eq_getElem?_getD, List.getElem?_eq_getElem hp1]
      exact List.getElem_mem hp1
    have hle : (b0.getD p.1 []).length ≤ 9 := hrows _ hrowmem
    unfold inB at hni
    push_neg at hni
    have hp2 : 9 ≤ p.2 := by
      refine hni ?_
      omega
    rw [bget_def]
    exact getD_oob (le_trans hle hp2)
  · rw [bget_def, getD_row_oob (Nat.le_of_not_lt hp1)]
    rfl

/-! ## Claim C1 -/

/-- C1 is violated by the code: the forward-checking dead-end branch
(line 66-67 of Sudoku.py) continues to the next candidate without
clearing `board[position]`, so a failing invocation can hand back a
mutated board.  Evaluation witness: the recursive invocation on
`board_lastCell` (one empty cell (0,8)) with domain table
`domains_c1 = [(0,8) ↦ [2]]` — the exact call that `solve` on
`board_rowCleared` performs at its deepest level — assigns 2 at (0,8),
prunes because forward checking empties the cell's own domain, exhausts
its candidates and returns failure with the assignment still on the
board.  The result is independent of any extra fuel. -/
theorem claim_C1_undo_bug :
    (solve board_lastCell (some domains_c1)).1.2 = false ∧
      (solve board_lastCell (some domains_c1)).2 = pre_solved ∧
      board_lastCell ≠ pre_solved ∧
      (∀ k : Nat, solveF (1 + k) board_lastCell (some domains_c1) =
        solve board_lastCell (some domains_c1)) := by
  have hdwf : DWF domains_c1 := by
    intro p v hv
    rw [domains_c1, dget_cons] at hv
    by_cases h : ((0, 8) : Pos) = p
    · rw [if_pos h] at hv
      simp only [List.mem_singleton] at hv
      omega
    · rw [if_neg h] at hv
      cases hv
  exact ⟨rfl, rfl, by decide,
    fun k => solveF_fuel_irrelevant (b := board_lastCell)
      (ODWF_some hdwf) k⟩

/-! ## Claim C3 -/

/-- C3 is violated by the code: `board_rowCleared` is a well-formed
conflict-free board admitting the valid completion `pre_solved`, yet
`solve` reports failure.  The search assigns row 0 cell by cell; at the
last cell (0,8) the tracked domain is the singleton [2], and since
`forward_checking` removes the assigned value from the assigned cell's
own domain (the position is part of its own unassigned region), the only
correct candidate is pruned as a dead end, so every branch fails.  The
failure is independent of any extra fuel beyond the 9 recursion levels
actually used. -/
theorem claim_C3_incompleteness :
    BoardWF board_rowCleared ∧ conflictFree board_rowCleared ∧
      validGrid pre_solved ∧ agrees board_rowCleared pre_solved ∧
      (solve board_rowCleared none).1.1 = none ∧
      (solve board_rowCleared none).1.2 = false ∧
      ∀ k : Nat, solveF (9 + k) board_rowCleared none =
        solve board_rowCleared none := by
  have hs : (solve board_rowCleared none).1 = (none, false) := by decide
  refine ⟨by decide, by decide, by decide,
    agrees_of_allPos (by decide) (by decide) (by decide),
    ?_, ?_, fun k => solveF_fuel_irrelevant (b := board_rowCleared)
      ODWF_none k⟩
  · rw [hs]
  · rw [hs]
